import Mathlib

/-!
# Verification of the maze-game core (maze generation, pathfinding, collision, markers)

This file gives a shallow embedding in Lean 4 of the algorithmic core of the
maze-game repository (src/js/maze.js, src/js/player.js, src/js/navigation.js)
and proves or refutes the frozen specification claims about it.

Conventions:
* JS floating-point numbers are modelled as exact rationals (ℚ); the claims under
  study concern order/arithmetic logic, not rounding.
* Grid coordinates are modelled as integers (ℤ); the JS bounds checks always guard
  grid accesses, and the embedding mirrors those guards.
* `Math.random()` draws are modelled by an arbitrary stream `rand : ℕ → ℕ`;
  an index into a list of length `n` is taken modulo `n`, which covers every
  behaviour of the JS uniform draw.
* The mutable `while` loops are modelled by fuel-indexed structural recursion;
  the fuel supplied by the wrapper definitions is shown (where a claim needs it)
  to dominate the loop's termination measure.
-/

/-! ## Vectors and boxes (THREE.Vector3 / THREE.Box3, as used by player.js) -/

structure V3 where
  x : ℚ
  y : ℚ
  z : ℚ
deriving DecidableEq, Repr

structure Box3 where
  lo : V3
  hi : V3
deriving DecidableEq, Repr

/-- THREE.Box3.intersectsBox: boxes are treated as closed; touching counts as
intersecting (separation requires a strict inequality on some axis). -/
def intersectsBox (a b : Box3) : Bool :=
  !(decide (b.hi.x < a.lo.x) || decide (b.lo.x > a.hi.x) ||
    decide (b.hi.y < a.lo.y) || decide (b.lo.y > a.hi.y) ||
    decide (b.hi.z < a.lo.z) || decide (b.lo.z > a.hi.z))

/-! ## player.js: collision resolution -/

def PLAYER_RADIUS : ℚ := 3 / 10

def PLAYER_HEIGHT : ℚ := 8 / 5

/-- The agent's collision volume from `checkCollision`: a box of half-width
`PLAYER_RADIUS` centered horizontally on the position, vertical extent
`[0, PLAYER_HEIGHT]` independent of the position's y. -/
def playerBox (p : V3) : Box3 :=
  ⟨⟨p.x - PLAYER_RADIUS, 0, p.z - PLAYER_RADIUS⟩,
   ⟨p.x + PLAYER_RADIUS, PLAYER_HEIGHT, p.z + PLAYER_RADIUS⟩⟩

/-- `Player.checkCollision`: test the agent box at `p` against every wall box. -/
def checkCollision (walls : List Box3) (p : V3) : Bool :=
  walls.any (fun wallBox => intersectsBox (playerBox p) wallBox)

/-- `Player.moveWithCollision`: try the X component of the movement from the
current position, keeping it only if collision-free; then try the Z component
from the (possibly X-adjusted) position. The y coordinate is never touched. -/
def moveWithCollision (walls : List Box3) (pos movement : V3) : V3 :=
  let newPosX : V3 := { pos with x := pos.x + movement.x }
  let pos1 : V3 := if checkCollision walls newPosX then pos else newPosX
  let newPosZ : V3 := { pos1 with z := pos1.z + movement.z }
  if checkCollision walls newPosZ then pos1 else newPosZ

/-- Resolving a whole sequence of movement deltas, one `moveWithCollision` per frame. -/
def resolveSeq (walls : List Box3) (pos : V3) (moves : List V3) : V3 :=
  moves.foldl (moveWithCollision walls) pos

/-! ## maze.js: level sizing policy -/

def MIN_SIZE : ℤ := 11

def MAX_SIZE : ℤ := 51

def SIZE_INCREMENT : ℤ := 4

/-- `Maze.getSizeForLevel`. -/
def getSizeForLevel (level : ℤ) : ℤ :=
  min (MIN_SIZE + (level - 1) * SIZE_INCREMENT) MAX_SIZE

/-! ## navigation.js: marker inventory (rubber ducks and chalk marks) -/

def DUCK_LIMIT : ℕ := 8

def CHALK_LIMIT : ℕ := 12

def CHALK_RANGE : ℚ := 2

/-- A placed duck: its position and its random Y-axis rotation. -/
structure Duck where
  pos : V3
  rotY : ℚ
deriving DecidableEq, Repr

/-- The chalk-mark orientation chosen by `createChalkX` from the surface normal. -/
inductive ChalkOrient where
  | faceY
  | faceX
  | faceZ
deriving DecidableEq, Repr

structure ChalkMark where
  pos : V3
  orient : ChalkOrient
deriving DecidableEq, Repr

/-- A ray-cast hit against a wall surface, as supplied by the raycaster. -/
structure RayHit where
  point : V3
  normal : V3
  distance : ℚ
deriving DecidableEq, Repr

/-- The error kinds emitted through the `onError` callback. -/
inductive NavErr where
  | breadcrumb
  | chalk
  | noWall
  | tooFar
deriving DecidableEq, Repr

/-- The `NavigationAids` state relevant to inventory logic.  Lights added per
duck are recorded as the positions of the two point lights. -/
structure NavState where
  ducks : List Duck
  duckLights : List V3
  duckCount : ℕ
  duckModelLoaded : Bool
  chalkMarks : List ChalkMark
  chalkCount : ℕ
  playerPosition : Option V3
  wallMeshes : List Unit
deriving DecidableEq, Repr

def addScaledVector (p v : V3) (s : ℚ) : V3 :=
  ⟨p.x + v.x * s, p.y + v.y * s, p.z + v.z * s⟩

/-- `NavigationAids.createChalkX`: the mark's pose; offset a small distance along
the normal, rotated flush against the nearest axis-aligned face. -/
def createChalkX (point normal : V3) : ChalkMark :=
  { pos := addScaledVector point normal (1 / 100)
    orient :=
      if |normal.y| > 9 / 10 then ChalkOrient.faceY
      else if |normal.x| > 9 / 10 then ChalkOrient.faceX
      else ChalkOrient.faceZ }

/-- `NavigationAids.dropDuck`.  Returns the new state and the error (if any)
reported through `onError`.  `randRot` models the random rotation draw. -/
def dropDuck (s : NavState) (randRot : ℚ) : NavState × Option NavErr :=
  if s.duckCount ≤ 0 then (s, some NavErr.breadcrumb)
  else
    match s.playerPosition with
    | none => (s, none)
    | some pp =>
      if !s.duckModelLoaded then (s, none)
      else
        ({ s with
            ducks := s.ducks ++ [⟨⟨pp.x, 0, pp.z⟩, randRot⟩]
            duckLights := s.duckLights ++ [⟨pp.x, 1 / 2, pp.z⟩, ⟨pp.x, 1 / 10, pp.z⟩]
            duckCount := s.duckCount - 1 }, none)

/-- `NavigationAids.placeChalkMark`.  `intersects` models the result list of
`raycaster.intersectObjects(this.wallMeshes)`. -/
def placeChalkMark (s : NavState) (intersects : List RayHit) : NavState × Option NavErr :=
  if s.chalkCount ≤ 0 then (s, some NavErr.chalk)
  else
    if s.wallMeshes.length = 0 then (s, none)
    else
      match intersects with
      | [] => (s, some NavErr.noWall)
      | hit :: _ =>
        if hit.distance > CHALK_RANGE then (s, some NavErr.tooFar)
        else
          ({ s with
              chalkMarks := s.chalkMarks ++ [createChalkX hit.point hit.normal]
              chalkCount := s.chalkCount - 1 }, none)

/-- `NavigationAids.reset`. -/
def navReset (s : NavState) : NavState :=
  { s with
      ducks := []
      duckLights := []
      duckCount := DUCK_LIMIT
      chalkMarks := []
      chalkCount := CHALK_LIMIT }

/-! ## Helper lemmas about the inventory operations -/

lemma dropDuck_duckCount_le (s : NavState) (r : ℚ) :
    (dropDuck s r).1.duckCount ≤ s.duckCount := by
  unfold dropDuck
  split
  · exact le_refl _
  · split
    · exact le_refl _
    · split
      · exact le_refl _
      · exact Nat.sub_le _ _

lemma dropDuck_chalkCount_eq (s : NavState) (r : ℚ) :
    (dropDuck s r).1.chalkCount = s.chalkCount := by
  unfold dropDuck
  split
  · rfl
  · split
    · rfl
    · split <;> rfl

lemma placeChalkMark_chalkCount_le (s : NavState) (hits : List RayHit) :
    (placeChalkMark s hits).1.chalkCount ≤ s.chalkCount := by
  unfold placeChalkMark
  split
  · exact le_refl _
  · split
    · exact le_refl _
    · split
      · exact le_refl _
      · split
        · exact le_refl _
        · exact Nat.sub_le _ _

lemma placeChalkMark_duckCount_eq (s : NavState) (hits : List RayHit) :
    (placeChalkMark s hits).1.duckCount = s.duckCount := by
  unfold placeChalkMark
  split
  · rfl
  · split
    · rfl
    · split
      · rfl
      · split <;> rfl

/-! ## Claim C9: counters monotone within a level, reset restores capacities -/

/-- C9: within a level, both marker counters are non-increasing under the two
inventory operations, and `reset` restores them exactly to the full capacities
(8 floor markers, 12 wall markers) and clears the placed-marker lists. -/
theorem navInventory_monotone_and_reset (s : NavState) (randRot : ℚ) (hits : List RayHit) :
    (dropDuck s randRot).1.duckCount ≤ s.duckCount ∧
    (dropDuck s randRot).1.chalkCount ≤ s.chalkCount ∧
    (placeChalkMark s hits).1.duckCount ≤ s.duckCount ∧
    (placeChalkMark s hits).1.chalkCount ≤ s.chalkCount ∧
    (navReset s).duckCount = DUCK_LIMIT ∧ DUCK_LIMIT = 8 ∧
    (navReset s).chalkCount = CHALK_LIMIT ∧ CHALK_LIMIT = 12 ∧
    (navReset s).ducks = [] ∧ (navReset s).duckLights = [] ∧
    (navReset s).chalkMarks = [] :=
  ⟨dropDuck_duckCount_le s randRot, le_of_eq (dropDuck_chalkCount_eq s randRot),
   le_of_eq (placeChalkMark_duckCount_eq s hits), placeChalkMark_chalkCount_le s hits,
   rfl, rfl, rfl, rfl, rfl, rfl, rfl⟩

/-! ## Claim C6: floor-marker placement -/

/-- A state with full capacities, a known player position, one wall mesh, but the
duck model not yet loaded.  Used to separate the claims' preconditions. -/
def navInit : NavState :=
  { ducks := []
    duckLights := []
    duckCount := DUCK_LIMIT
    duckModelLoaded := false
    chalkMarks := []
    chalkCount := CHALK_LIMIT
    playerPosition := some ⟨1, 3 / 2, 1⟩
    wallMeshes := [()] }

def navLoaded : NavState := { navInit with duckModelLoaded := true }

/-- C6 counterexample: with full floor-marker capacity (8 > 0) but the duck model
not yet loaded, `dropDuck` silently does nothing — the count stays 8, no marker is
recorded, and no error is signalled — refuting the claim that capacity > 0 alone
guarantees a successful placement. -/
theorem dropDuck_claim_counterexample :
    0 < navInit.duckCount ∧
    (dropDuck navInit 0).1.duckCount = navInit.duckCount ∧
    (dropDuck navInit 0).1.ducks = [] ∧
    (dropDuck navInit 0).2 = none :=
  ⟨by decide, rfl, rfl, rfl⟩

/-- C6 amended: provided the agent position is known and the marker model has
finished loading, a placement with capacity > 0 succeeds (the count decrements by
one and the marker is recorded at the agent's position); an error is signalled
only when capacity is exhausted, and it is the floor-marker kind. -/
theorem dropDuck_amended (s : NavState) (randRot : ℚ) :
    (∀ pp, s.playerPosition = some pp → s.duckModelLoaded = true → 0 < s.duckCount →
      (dropDuck s randRot).1.duckCount = s.duckCount - 1 ∧
      (dropDuck s randRot).1.ducks = s.ducks ++ [⟨⟨pp.x, 0, pp.z⟩, randRot⟩] ∧
      (dropDuck s randRot).2 = none) ∧
    (∀ e, (dropDuck s randRot).2 = some e → s.duckCount = 0 ∧ e = NavErr.breadcrumb) := by
  constructor
  · intro pp hpp hload hcap
    unfold dropDuck
    rw [if_neg (by omega), hpp]
    simp [hload]
  · intro e he
    unfold dropDuck at he
    by_cases hc : s.duckCount ≤ 0
    · rw [if_pos hc] at he
      refine ⟨by omega, ?_⟩
      cases he
      rfl
    · rw [if_neg hc] at he
      cases hpp : s.playerPosition with
      | none => rw [hpp] at he; simp at he
      | some pp =>
        rw [hpp] at he
        by_cases hl : s.duckModelLoaded <;> simp [hl] at he

theorem dropDuck_amended_witness :
    (dropDuck navLoaded 0).1.duckCount = navLoaded.duckCount - 1 ∧ navLoaded.duckCount = 8 :=
  ⟨((dropDuck_amended navLoaded 0).1 ⟨1, 3 / 2, 1⟩ rfl rfl (by decide)).1, rfl⟩

/-! ## Claim C7: wall-marker placement -/

def navNoWalls : NavState := { navInit with wallMeshes := [] }

/-- C7 counterexample: with full wall-marker capacity but an empty wall-mesh list,
the raycast can supply no hit, yet the rejected placement reports no error at all
instead of the no-surface error the claim requires. -/
theorem placeChalkMark_claim_counterexample :
    0 < navNoWalls.chalkCount ∧
    (placeChalkMark navNoWalls []).2 = none ∧
    (placeChalkMark navNoWalls []).2 ≠ some NavErr.noWall ∧
    (placeChalkMark navNoWalls []).1 = navNoWalls := by
  refine ⟨by decide, rfl, ?_, rfl⟩
  intro h
  exact Option.noConfusion h

/-- C7 amended: provided at least one wall mesh is registered, a wall-marker
placement is rejected exactly when capacity is 0, or no surface hit is supplied,
or the hit distance exceeds the fixed maximum range 2; the three rejections carry
the distinct reasons chalk / noWall / tooFar, checked in that priority order — in
particular a hit at distance 5/2 against range 2 with capacity > 0 is tooFar. -/
theorem placeChalkMark_amended (s : NavState) (hits : List RayHit)
    (hw : s.wallMeshes ≠ []) :
    ((placeChalkMark s hits).2 ≠ none ↔
      (s.chalkCount = 0 ∨ hits = [] ∨
        ∃ hit rest, hits = hit :: rest ∧ CHALK_RANGE < hit.distance)) ∧
    (s.chalkCount = 0 → (placeChalkMark s hits).2 = some NavErr.chalk) ∧
    (0 < s.chalkCount → hits = [] → (placeChalkMark s hits).2 = some NavErr.noWall) ∧
    (∀ hit rest, 0 < s.chalkCount → hits = hit :: rest → CHALK_RANGE < hit.distance →
      (placeChalkMark s hits).2 = some NavErr.tooFar) ∧
    CHALK_RANGE = 2 := by
  have hw' : ¬ s.wallMeshes.length = 0 := by
    simpa [List.length_eq_zero] using hw
  by_cases hc : s.chalkCount ≤ 0
  · have hc0 : s.chalkCount = 0 := by omega
    unfold placeChalkMark
    rw [if_pos hc]
    exact ⟨by simp [hc0], fun _ => rfl, fun h _ => absurd h (by omega),
      fun hit rest h _ _ => absurd h (by omega), rfl⟩
  · unfold placeChalkMark
    rw [if_neg hc, if_neg hw']
    cases hits with
    | nil =>
      refine ⟨by simp, ?_, fun _ _ => rfl, ?_, rfl⟩
      · intro h
        exact absurd h (by omega)
      · intro hit rest _ h _
        exact List.noConfusion h
    | cons hit rest =>
      dsimp only
      by_cases hd : hit.distance > CHALK_RANGE
      · rw [if_pos hd]
        refine ⟨?_, ?_, ?_, ?_, rfl⟩
        · constructor
          · intro _
            exact Or.inr (Or.inr ⟨hit, rest, rfl, hd⟩)
          · intro _
            simp
        · intro h
          exact absurd h (by omega)
        · intro _ h
          exact List.noConfusion h
        · intro hit' rest' _ heq _
          cases heq
          rfl
      · rw [if_neg hd]
        refine ⟨?_, ?_, ?_, ?_, rfl⟩
        · constructor
          · intro h
            exact absurd rfl h
          · rintro (h | h | ⟨hit', rest', heq, hfar⟩)
            · omega
            · exact List.noConfusion h
            · cases heq
              exact absurd hfar hd
        · intro h
          exact absurd h (by omega)
        · intro _ h
          exact List.noConfusion h
        · intro hit' rest' _ heq hfar
          cases heq
          exact absurd hfar hd

theorem placeChalkMark_amended_witness :
    (placeChalkMark navInit [⟨⟨0, 0, 0⟩, ⟨1, 0, 0⟩, 5 / 2⟩]).2 = some NavErr.tooFar :=
  (placeChalkMark_amended navInit [⟨⟨0, 0, 0⟩, ⟨1, 0, 0⟩, 5 / 2⟩] (by decide)).2.2.2.1
    ⟨⟨0, 0, 0⟩, ⟨1, 0, 0⟩, 5 / 2⟩ [] (by decide) rfl (by norm_num [CHALK_RANGE])

/-! ## Claim C2: collision resolution is safe for any sequence of deltas -/

lemma moveWithCollision_safe (walls : List Box3) (pos movement : V3)
    (h : checkCollision walls pos = false) :
    checkCollision walls (moveWithCollision walls pos movement) = false := by
  unfold moveWithCollision
  by_cases h1 : checkCollision walls { pos with x := pos.x + movement.x } = true
  · simp only [h1, if_true]
    by_cases h2 : checkCollision walls { pos with z := pos.z + movement.z } = true
    · simpa [h2] using h
    · simp only [Bool.not_eq_true] at h2
      simp [h2]
  · simp only [Bool.not_eq_true] at h1
    simp only [h1, if_false]
    by_cases h2 : checkCollision walls
        { pos with x := pos.x + movement.x, z := pos.z + movement.z } = true
    · simpa [h2] using h1
    · simp only [Bool.not_eq_true] at h2
      simpa [h2] using h2

/-- C2: if the agent volume at the starting position intersects no wall box, then
after resolving any sequence of movement deltas the agent volume still intersects
no wall box (each axis of each delta is kept only if the resulting position is
collision-free, so collision-freedom is invariant). -/
theorem resolveSeq_never_collides (walls : List Box3) (pos : V3) (moves : List V3)
    (h : checkCollision walls pos = false) :
    checkCollision walls (resolveSeq walls pos moves) = false := by
  induction moves generalizing pos with
  | nil => exact h
  | cons m ms ih =>
    simp only [resolveSeq, List.foldl_cons]
    exact ih (moveWithCollision walls pos m) (moveWithCollision_safe walls pos m h)

theorem resolveSeq_never_collides_witness :
    checkCollision [⟨⟨1, 0, 1⟩, ⟨2, 3, 2⟩⟩] ⟨5, 0, 5⟩ = false ∧
    checkCollision [⟨⟨1, 0, 1⟩, ⟨2, 3, 2⟩⟩]
      (resolveSeq [⟨⟨1, 0, 1⟩, ⟨2, 3, 2⟩⟩] ⟨5, 0, 5⟩ [⟨-1, 0, -1⟩, ⟨-2, 0, -2⟩]) = false := by
  have h0 : checkCollision [(⟨⟨1, 0, 1⟩, ⟨2, 3, 2⟩⟩ : Box3)] ⟨5, 0, 5⟩ = false := by
    norm_num [checkCollision, intersectsBox, playerBox, PLAYER_RADIUS, PLAYER_HEIGHT]
  exact ⟨h0, resolveSeq_never_collides _ _ _ h0⟩

/-! ## Claim C8: axis-separated resolution of a diagonal delta -/

def c8Walls : List Box3 := [⟨⟨1, 0, 1⟩, ⟨2, 3, 2⟩⟩]

def c8Pos : V3 := ⟨3 / 2, 0, 3 / 5⟩

def c8Mv : V3 := ⟨-1, 0, 1 / 2⟩

/-- C8 counterexample: the agent starts collision-free beside a wall; the Z
component of the delta alone would collide while the X component alone would not,
yet resolution moves on BOTH axes (the X move slides the agent past the wall's
extent, after which the Z move no longer collides), so the blocked axis is not
cancelled as the claim requires. -/
theorem moveWithCollision_claim_counterexample :
    checkCollision c8Walls c8Pos = false ∧
    checkCollision c8Walls { c8Pos with x := c8Pos.x + c8Mv.x } = false ∧
    checkCollision c8Walls { c8Pos with z := c8Pos.z + c8Mv.z } = true ∧
    (moveWithCollision c8Walls c8Pos c8Mv).z ≠ c8Pos.z := by
  refine ⟨?_, ?_, ?_, ?_⟩ <;>
    norm_num [moveWithCollision, checkCollision, c8Walls, c8Pos, c8Mv, intersectsBox,
      playerBox, PLAYER_RADIUS, PLAYER_HEIGHT]

/-- C8 amended: resolution never alters the vertical coordinate; when the X
component alone is blocked and the Z component alone is free, it cancels X only
and applies the full Z delta; when instead Z alone is blocked and X alone is
free, the full X delta is applied and the Z delta is cancelled only if it still
collides from the X-adjusted position (tested there, not from the origin). -/
theorem moveWithCollision_axis_cases (walls : List Box3) (pos mv : V3)
    (h0 : checkCollision walls pos = false) :
    (moveWithCollision walls pos mv).y = pos.y ∧
    (checkCollision walls { pos with x := pos.x + mv.x } = true →
      checkCollision walls { pos with z := pos.z + mv.z } = false →
      moveWithCollision walls pos mv = { pos with z := pos.z + mv.z }) ∧
    (checkCollision walls { pos with x := pos.x + mv.x } = false →
      checkCollision walls { pos with z := pos.z + mv.z } = true →
      (moveWithCollision walls pos mv).x = pos.x + mv.x ∧
      (if checkCollision walls { pos with x := pos.x + mv.x, z := pos.z + mv.z }
        then (moveWithCollision walls pos mv).z = pos.z
        else (moveWithCollision walls pos mv).z = pos.z + mv.z)) := by
  refine ⟨?_, ?_, ?_⟩
  · unfold moveWithCollision
    by_cases h1 : checkCollision walls { pos with x := pos.x + mv.x } = true
    · simp only [h1, if_true]
      by_cases h2 : checkCollision walls { pos with z := pos.z + mv.z } = true
      · simp [h2]
      · simp only [Bool.not_eq_true] at h2
        simp [h2]
    · simp only [Bool.not_eq_true] at h1
      simp only [h1, if_false]
      by_cases h2 : checkCollision walls
          { pos with x := pos.x + mv.x, z := pos.z + mv.z } = true
      · simp [h2]
      · simp only [Bool.not_eq_true] at h2
        simp [h2]
  · intro h1 h2
    unfold moveWithCollision
    simp [h1, h2]
  · intro h1 h2
    unfold moveWithCollision
    by_cases h3 : checkCollision walls { pos with x := pos.x + mv.x, z := pos.z + mv.z } = true
    · simp [h1, h3]
    · simp only [Bool.not_eq_true] at h3
      simp [h1, h3]

/-- A concrete instance exercising the X-blocked / Z-free case of the amended C8
statement: the result is exactly the Z-shifted position. -/
theorem moveWithCollision_axis_cases_witness :
    moveWithCollision c8Walls ⟨3 / 5, 0, 3 / 2⟩ ⟨1 / 2, 0, 1 / 2⟩ =
      { (⟨3 / 5, 0, 3 / 2⟩ : V3) with z := 3 / 2 + 1 / 2 } :=
  (moveWithCollision_axis_cases c8Walls ⟨3 / 5, 0, 3 / 2⟩ ⟨1 / 2, 0, 1 / 2⟩
    (by norm_num [checkCollision, c8Walls, intersectsBox, playerBox, PLAYER_RADIUS,
      PLAYER_HEIGHT])).2.1
    (by norm_num [checkCollision, c8Walls, intersectsBox, playerBox, PLAYER_RADIUS,
      PLAYER_HEIGHT])
    (by norm_num [checkCollision, c8Walls, intersectsBox, playerBox, PLAYER_RADIUS,
      PLAYER_HEIGHT])

/-! ## Claim C10: level sizing -/

/-- C10: for every level L ≥ 1 the maze size is min(11 + (L-1)*4, 51); levels
1..12 give 11,15,19,23,27,31,35,39,43,47,51,51 and the size saturates at 51 for
every level ≥ 11. -/
theorem getSizeForLevel_spec (L : ℤ) (hL : 1 ≤ L) :
    getSizeForLevel L = min (11 + (L - 1) * 4) 51 ∧
    (11 ≤ L → getSizeForLevel L = 51) ∧
    getSizeForLevel 1 = 11 ∧ getSizeForLevel 2 = 15 ∧ getSizeForLevel 3 = 19 ∧
    getSizeForLevel 4 = 23 ∧ getSizeForLevel 5 = 27 ∧ getSizeForLevel 6 = 31 ∧
    getSizeForLevel 7 = 35 ∧ getSizeForLevel 8 = 39 ∧ getSizeForLevel 9 = 43 ∧
    getSizeForLevel 10 = 47 ∧ getSizeForLevel 11 = 51 ∧ getSizeForLevel 12 = 51 := by
  refine ⟨rfl, ?_, ?_, ?_, ?_, ?_, ?_, ?_, ?_, ?_, ?_, ?_, ?_, ?_⟩
  · intro h11
    unfold getSizeForLevel MIN_SIZE MAX_SIZE SIZE_INCREMENT
    rw [min_eq_right (by omega)]
  all_goals rfl

theorem getSizeForLevel_spec_witness :
    (1 : ℤ) ≤ 1 ∧ getSizeForLevel 1 = min (11 + ((1 : ℤ) - 1) * 4) 51 :=
  ⟨by omega, (getSizeForLevel_spec 1 (by omega)).1⟩

/-! ## maze.js: the grid and world/grid coordinate conversion -/

abbrev Cell := ℤ × ℤ

abbrev GridRows := List (List ℕ)

def CELL_SIZE : ℚ := 1

/-- Reading `grid[z][x]`; every access in the source is guarded by a bounds
check, under which the defaults are never consulted. -/
def getCell (g : GridRows) (x z : ℤ) : ℕ :=
  (g.getD z.toNat []).getD x.toNat 1

/-- Writing `grid[z][x] = v`. -/
def setCell (g : GridRows) (x z : ℤ) (v : ℕ) : GridRows :=
  g.set z.toNat ((g.getD z.toNat []).set x.toNat v)

/-- The maze fields read by the pathfinding and carving code. -/
structure MazeModel where
  width : ℕ
  height : ℕ
  grid : GridRows

/-- JS `Math.round` (round half toward +infinity). -/
def jsRound (q : ℚ) : ℤ := ⌊q + 1 / 2⌋

/-- `Maze.worldToGrid`. -/
def worldToGrid (worldX worldZ : ℚ) : Cell :=
  (jsRound (worldX / CELL_SIZE), jsRound (worldZ / CELL_SIZE))

/-- The x coordinate of `Maze.exitPosition` set by `generate`. -/
def exitPositionX (m : MazeModel) : ℚ := ((m.width : ℚ) - 2) * CELL_SIZE

/-- The z coordinate of `Maze.exitPosition` set by `generate`. -/
def exitPositionZ (m : MazeModel) : ℚ := ((m.height : ℚ) - 2) * CELL_SIZE

/-- The neighbour test shared by the BFS loops: in bounds and `grid[nz][nx] === 0`. -/
def inBoundsOpen (m : MazeModel) (c : Cell) : Bool :=
  decide (0 ≤ c.1) && decide (c.1 < (m.width : ℤ)) &&
  decide (0 ≤ c.2) && decide (c.2 < (m.height : ℤ)) &&
  decide (getCell m.grid c.1 c.2 = 0)

/-- The four axis directions, in the order the source lists them. -/
def pathDirs : List Cell := [(0, -1), (0, 1), (-1, 0), (1, 0)]

/-- 4-neighbour adjacency of grid cells. -/
def adjCell (a b : Cell) : Prop :=
  (a.1 - b.1).natAbs + (a.2 - b.2).natAbs = 1

instance (a b : Cell) : Decidable (adjCell a b) := by
  unfold adjCell
  infer_instance

/-- Manhattan distance between two cells. -/
def manhattan (a b : Cell) : ℕ :=
  (a.1 - b.1).natAbs + (a.2 - b.2).natAbs

/-! ## maze.js: findPath (BFS from the query cell to the exit cell) -/

/-- One direction's body of the neighbour loop in `findPath`: if the neighbour is
in bounds, open and unvisited, mark it visited and enqueue the extended path. -/
def findPathStep (m : MazeModel) (path : List Cell) (cur : Cell)
    (st : List (List Cell) × Finset Cell) (d : Cell) : List (List Cell) × Finset Cell :=
  let n : Cell := (cur.1 + d.1, cur.2 + d.2)
  if inBoundsOpen m n = true ∧ n ∉ st.2 then
    (st.1 ++ [path ++ [n]], insert n st.2)
  else st

/-- The `for (const dir of directions)` loop of one `findPath` dequeue. -/
def findPathExpand (m : MazeModel) (path : List Cell) (cur : Cell)
    (st : List (List Cell) × Finset Cell) : List (List Cell) × Finset Cell :=
  pathDirs.foldl (findPathStep m path cur) st

/-- The `while (queue.length > 0)` loop of `findPath`, fuelled. -/
def findPathLoop (m : MazeModel) (e : Cell) :
    ℕ → List (List Cell) → Finset Cell → Option (List Cell)
  | 0, _, _ => none
  | _ + 1, [], _ => none
  | fuel + 1, path :: rest, visited =>
    let cur := path.getLastD (0, 0)
    if cur = e then some path
    else
      let st := findPathExpand m path cur (rest, visited)
      findPathLoop m e fuel st.1 st.2

/-- `Maze.findPath`: BFS from the grid cell under the query world position to the
exit cell.  The fuel dominates the loop's iteration count: there is at most one
dequeue per enqueue, and each enqueue freshly visits one of the `width * height`
cells. -/
def findPath (m : MazeModel) (startWorldX startWorldZ : ℚ) : Option (List Cell) :=
  let s := worldToGrid startWorldX startWorldZ
  let e := worldToGrid (exitPositionX m) (exitPositionZ m)
  findPathLoop m e (2 * m.width * m.height + 2) [[s]] {s}

/-! ## C3: soundness invariants for findPath -/

/-- The queue invariant of `findPath`: each queued path starts at the query cell,
consecutive cells are 4-adjacent, and every cell after the first is an in-bounds
open cell. -/
def goodPath (m : MazeModel) (s : Cell) (p : List Cell) : Prop :=
  p.head? = some s ∧ List.Chain' adjCell p ∧ ∀ c ∈ p.tail, inBoundsOpen m c = true

lemma goodPath_ne_nil {m : MazeModel} {s : Cell} {p : List Cell}
    (h : goodPath m s p) : p ≠ [] := by
  intro hnil
  rw [hnil] at h
  exact Option.noConfusion h.1

lemma getLast?_eq_getLastD {p : List Cell} (hne : p ≠ []) :
    p.getLast? = some (p.getLastD (0, 0)) := by
  rw [List.getLastD_eq_getLast?, List.getLast?_eq_getLast_of_ne_nil hne]
  rfl

lemma goodPath_append {m : MazeModel} {s : Cell} {p : List Cell} {n : Cell}
    (h : goodPath m s p) (hadj : adjCell (p.getLastD (0, 0)) n)
    (hopen : inBoundsOpen m n = true) : goodPath m s (p ++ [n]) := by
  obtain ⟨hhead, hchain, htail⟩ := h
  have hne : p ≠ [] := goodPath_ne_nil ⟨hhead, hchain, htail⟩
  refine ⟨?_, ?_, ?_⟩
  · rwa [List.head?_append_of_ne_nil _ hne]
  · rw [List.chain'_append]
    refine ⟨hchain, List.chain'_singleton _, ?_⟩
    intro x hx y hy
    rw [getLast?_eq_getLastD hne, Option.mem_def, Option.some.injEq] at hx
    rw [List.head?_cons, Option.mem_def, Option.some.injEq] at hy
    rw [hx] at hadj
    rw [hy] at hadj
    exact hadj
  · rw [List.tail_append_singleton_of_ne_nil hne]
    intro c hc
    rcases List.mem_append.1 hc with h1 | h1
    · exact htail c h1
    · rw [List.mem_singleton] at h1
      rw [h1]
      exact hopen

lemma findPathStep_mem {m : MazeModel} {path : List Cell} {cur : Cell}
    {st : List (List Cell) × Finset Cell} {d : Cell} {q : List Cell}
    (hq : q ∈ (findPathStep m path cur st d).1) :
    q ∈ st.1 ∨ ∃ n : Cell, inBoundsOpen m n = true ∧
      (cur.1 - n.1).natAbs + (cur.2 - n.2).natAbs = d.1.natAbs + d.2.natAbs ∧
      q = path ++ [n] := by
  unfold findPathStep at hq
  by_cases hcond : inBoundsOpen m (cur.1 + d.1, cur.2 + d.2) = true ∧
      (cur.1 + d.1, cur.2 + d.2) ∉ st.2
  · rw [if_pos hcond] at hq
    rcases List.mem_append.1 hq with h1 | h1
    · exact Or.inl h1
    · rw [List.mem_singleton] at h1
      exact Or.inr ⟨(cur.1 + d.1, cur.2 + d.2), hcond.1, by omega, h1⟩
  · rw [if_neg hcond] at hq
    exact Or.inl hq

lemma findPathExpand_mem {m : MazeModel} {path : List Cell} {cur : Cell}
    {st : List (List Cell) × Finset Cell} {q : List Cell}
    (hq : q ∈ (findPathExpand m path cur st).1) :
    q ∈ st.1 ∨ ∃ n : Cell, inBoundsOpen m n = true ∧ adjCell cur n ∧ q = path ++ [n] := by
  have key : ∀ (dirs : List Cell), (∀ d ∈ dirs, d.1.natAbs + d.2.natAbs = 1) →
      ∀ st : List (List Cell) × Finset Cell,
        q ∈ (dirs.foldl (findPathStep m path cur) st).1 →
        q ∈ st.1 ∨ ∃ n : Cell, inBoundsOpen m n = true ∧ adjCell cur n ∧ q = path ++ [n] := by
    intro dirs
    induction dirs with
    | nil => intro _ st h; exact Or.inl h
    | cons d ds ih =>
      intro hd st h
      rw [List.foldl_cons] at h
      rcases ih (fun d' hd' => hd d' (List.mem_cons_of_mem _ hd')) _ h with h1 | h1
      · rcases findPathStep_mem h1 with h2 | h2
        · exact Or.inl h2
        · obtain ⟨n, hopen, hdist, heq⟩ := h2
          refine Or.inr ⟨n, hopen, ?_, heq⟩
          have := hd d (List.mem_cons_self _ _)
          unfold adjCell
          omega
      · exact Or.inr h1
  exact key pathDirs (by decide) st hq

lemma findPathLoop_sound (m : MazeModel) (s e : Cell) :
    ∀ (fuel : ℕ) (queue : List (List Cell)) (visited : Finset Cell) (p : List Cell),
      (∀ q ∈ queue, goodPath m s q) →
      findPathLoop m e fuel queue visited = some p →
      goodPath m s p ∧ p.getLastD (0, 0) = e := by
  intro fuel
  induction fuel with
  | zero =>
    intro queue visited p _ h
    exact Option.noConfusion h
  | succ fuel ih =>
    intro queue visited p hq hres
    cases queue with
    | nil => exact Option.noConfusion hres
    | cons path rest =>
      simp only [findPathLoop] at hres
      by_cases hcur : path.getLastD (0, 0) = e
      · rw [if_pos hcur] at hres
        injection hres with h1
        subst h1
        exact ⟨hq path (List.mem_cons_self _ _), hcur⟩
      · rw [if_neg hcur] at hres
        refine ih _ _ p ?_ hres
        intro q hmem
        rcases findPathExpand_mem hmem with h1 | h1
        · exact hq q (List.mem_cons_of_mem _ h1)
        · obtain ⟨n, hopen, hadj, heq⟩ := h1
          rw [heq]
          exact goodPath_append (hq path (List.mem_cons_self _ _)) hadj hopen

lemma chain'_manhattan :
    ∀ (p : List Cell), List.Chain' adjCell p → ∀ a b : Cell,
      p.head? = some a → p.getLast? = some b → manhattan a b + 1 ≤ p.length := by
  intro p
  induction p with
  | nil =>
    intro _ a b h
    exact Option.noConfusion h
  | cons c q ih =>
    intro hchain a b hhead hlast
    rw [List.head?_cons, Option.some.injEq] at hhead
    subst hhead
    cases q with
    | nil =>
      rw [List.getLast?_singleton, Option.some.injEq] at hlast
      subst hlast
      simp [manhattan]
    | cons c' q' =>
      rw [List.chain'_cons] at hchain
      have hlast' : (c' :: q').getLast? = some b := by
        rw [List.getLast?_cons_cons] at hlast
        exact hlast
      have ihle := ih hchain.2 c' b rfl hlast'
      have hadj : adjCell c c' := hchain.1
      have htri : manhattan c b ≤ manhattan c c' + manhattan c' b := by
        unfold manhattan
        omega
      have h1 : manhattan c c' = 1 := hadj
      simp only [List.length_cons] at ihle ⊢
      omega

/-- C3 counterexample: on the explicit 3 x 3 grid whose only open cell is the
exit (1,1), a query at world position (0,1) rounds to the Wall cell (0,1); the
BFS returns the path [(0,1),(1,1)], whose first cell is not Open, refuting
"every cell in the returned sequence is Open". -/
def c3Maze : MazeModel := ⟨3, 3, [[1, 1, 1], [1, 0, 1], [1, 1, 1]]⟩

lemma worldToGrid_c3 : worldToGrid 0 1 = ((0 : ℤ), (1 : ℤ)) := by
  norm_num [worldToGrid, jsRound, CELL_SIZE]

lemma exitCell_c3 : worldToGrid (exitPositionX c3Maze) (exitPositionZ c3Maze) =
    ((1 : ℤ), (1 : ℤ)) := by
  norm_num [worldToGrid, jsRound, CELL_SIZE, exitPositionX, exitPositionZ, c3Maze]

/-- The concrete BFS run for the C3 counterexample and witness. -/
lemma findPath_c3_eval : findPath c3Maze 0 1 = some [(0, 1), (1, 1)] := by
  rw [findPath, worldToGrid_c3, exitCell_c3]
  decide

theorem findPath_claim_counterexample :
    findPath c3Maze 0 1 = some [(0, 1), (1, 1)] ∧
    ¬ (∀ c ∈ [((0 : ℤ), (1 : ℤ)), ((1 : ℤ), (1 : ℤ))], inBoundsOpen c3Maze c = true) :=
  ⟨findPath_c3_eval, by decide⟩

/-- C3 amended: whenever `findPath` returns a path, its first cell is the cell
under the query position, its last cell is the exit cell, consecutive cells are
4-adjacent, every cell after the first is Open, and the length is at least the
Manhattan distance between origin and exit cells.  (The origin cell itself is
enqueued without an openness check, so it need not be Open.) -/
theorem findPath_amended (m : MazeModel) (wx wz : ℚ) (p : List Cell)
    (h : findPath m wx wz = some p) :
    p.head? = some (worldToGrid wx wz) ∧
    p.getLast? = some (worldToGrid (exitPositionX m) (exitPositionZ m)) ∧
    List.Chain' adjCell p ∧
    (∀ c ∈ p.tail, inBoundsOpen m c = true) ∧
    manhattan (worldToGrid wx wz) (worldToGrid (exitPositionX m) (exitPositionZ m))
      ≤ p.length := by
  have hinit : ∀ q ∈ [[worldToGrid wx wz]], goodPath m (worldToGrid wx wz) q := by
    intro q hmem
    rw [List.mem_singleton] at hmem
    rw [hmem]
    exact ⟨rfl, List.chain'_singleton _, by simp⟩
  have hsound := findPathLoop_sound m (worldToGrid wx wz)
    (worldToGrid (exitPositionX m) (exitPositionZ m))
    (2 * m.width * m.height + 2) [[worldToGrid wx wz]] {worldToGrid wx wz} p hinit h
  obtain ⟨⟨hhead, hchain, htail⟩, hlastD⟩ := hsound
  have hne : p ≠ [] := goodPath_ne_nil ⟨hhead, hchain, htail⟩
  have hlast : p.getLast? = some (worldToGrid (exitPositionX m) (exitPositionZ m)) := by
    rw [getLast?_eq_getLastD hne, hlastD]
  refine ⟨hhead, hlast, hchain, htail, ?_⟩
  have := chain'_manhattan p hchain _ _ hhead hlast
  omega

theorem findPath_amended_witness :
    List.Chain' adjCell [((0 : ℤ), (1 : ℤ)), ((1 : ℤ), (1 : ℤ))] ∧
    manhattan (worldToGrid 0 1) (worldToGrid (exitPositionX c3Maze) (exitPositionZ c3Maze))
      ≤ ([((0 : ℤ), (1 : ℤ)), ((1 : ℤ), (1 : ℤ))] : List Cell).length :=
  ⟨(findPath_amended c3Maze 0 1 [(0, 1), (1, 1)] findPath_c3_eval).2.2.1,
   (findPath_amended c3Maze 0 1 [(0, 1), (1, 1)] findPath_c3_eval).2.2.2.2⟩

/-! ## maze.js: findTeleportPosition (ring-candidate BFS from the exit) -/

/-- One direction's body of the neighbour loop in `findTeleportPosition`. -/
def teleStep (m : MazeModel) (cd : Cell × ℕ)
    (st : List (Cell × ℕ) × Finset Cell) (d : Cell) : List (Cell × ℕ) × Finset Cell :=
  let n : Cell := (cd.1.1 + d.1, cd.1.2 + d.2)
  if inBoundsOpen m n = true ∧ n ∉ st.2 then
    (st.1 ++ [(n, cd.2 + 1)], insert n st.2)
  else st

/-- The `for (const dir of directions)` loop of one teleport-BFS dequeue. -/
def teleExpand (m : MazeModel) (cd : Cell × ℕ)
    (st : List (Cell × ℕ) × Finset Cell) : List (Cell × ℕ) × Finset Cell :=
  pathDirs.foldl (teleStep m cd) st

structure TeleState where
  queue : List (Cell × ℕ)
  visited : Finset Cell
  candidates : List (Cell × ℕ)

/-- The `while (queue.length > 0)` loop of `findTeleportPosition`, fuelled:
collect a dequeued cell whose recorded distance lies in [3,4]; stop expanding
once the distance reaches 4. -/
def teleLoop (m : MazeModel) : ℕ → TeleState → TeleState
  | 0, s => s
  | _ + 1, ⟨[], v, c⟩ => ⟨[], v, c⟩
  | fuel + 1, ⟨cd :: rest, visited, cands⟩ =>
    let cands' := if 3 ≤ cd.2 ∧ cd.2 ≤ 4 then cands ++ [cd] else cands
    if 4 ≤ cd.2 then teleLoop m fuel ⟨rest, visited, cands'⟩
    else
      let st := teleExpand m cd (rest, visited)
      teleLoop m fuel ⟨st.1, st.2, cands'⟩

/-- The candidate list built by `findTeleportPosition`'s BFS. -/
def findTeleportCandidates (m : MazeModel) : List (Cell × ℕ) :=
  let exitGrid := worldToGrid (exitPositionX m) (exitPositionZ m)
  (teleLoop m (2 * m.width * m.height + 2)
    ⟨[(exitGrid, 0)], {exitGrid}, []⟩).candidates

/-- `Maze.gridToWorld`. -/
def gridToWorld (gridX gridZ : ℤ) : ℚ × ℚ :=
  ((gridX : ℚ) * CELL_SIZE, (gridZ : ℚ) * CELL_SIZE)

/-- `Maze.findTeleportPosition`: null when no candidate exists, otherwise the
world position of a random candidate at height 1.5. -/
def findTeleportPosition (m : MazeModel) (rand : ℕ) : Option V3 :=
  let candidates := findTeleportCandidates m
  if candidates.length = 0 then none
  else
    let chosen := (candidates.getD (rand % candidates.length) ((0, 0), 0)).1
    let world := gridToWorld chosen.1 chosen.2
    some ⟨world.1, 3 / 2, world.2⟩

/-! ## BFS hop distance (the specification-side notion for C4) -/

/-- One BFS edge: step to a 4-adjacent cell that is in bounds and Open (the
source cell of a step is unconstrained, matching the BFS seed). -/
def bfsEdge (m : MazeModel) (a b : Cell) : Prop :=
  adjCell a b ∧ inBoundsOpen m b = true

/-- There is a BFS walk of exactly `d` steps from `s` to `t`. -/
def hopReach (m : MazeModel) (s t : Cell) (d : ℕ) : Prop :=
  ∃ p : List Cell, List.Chain (bfsEdge m) s p ∧ p.getLastD s = t ∧ p.length = d

/-- `d` is THE BFS hop distance from `s` to `t`: some walk of length `d` exists
and no shorter walk does. -/
def isHopDist (m : MazeModel) (s t : Cell) (d : ℕ) : Prop :=
  hopReach m s t d ∧ ∀ k, hopReach m s t k → d ≤ k

lemma chain_snoc {R : Cell → Cell → Prop} :
    ∀ (s : Cell) (p : List Cell) (n : Cell),
      List.Chain R s (p ++ [n]) ↔ List.Chain R s p ∧ R (p.getLastD s) n := by
  intro s p
  induction p generalizing s with
  | nil =>
    intro n
    simp [List.chain_cons]
  | cons a p' ih =>
    intro n
    rw [List.cons_append, List.chain_cons, List.chain_cons, ih a n, List.getLastD_cons]
    tauto

lemma hopReach_zero {m : MazeModel} {s t : Cell} : hopReach m s t 0 ↔ t = s := by
  constructor
  · rintro ⟨p, _, hlast, hlen⟩
    rw [List.length_eq_zero] at hlen
    rw [hlen] at hlast
    exact hlast.symm
  · rintro rfl
    exact ⟨[], List.Chain.nil, rfl, rfl⟩

lemma hopReach_self (m : MazeModel) (s : Cell) : hopReach m s s 0 :=
  hopReach_zero.2 rfl

lemma hopReach_snoc {m : MazeModel} {s t n : Cell} {d : ℕ}
    (h : hopReach m s t d) (he : bfsEdge m t n) : hopReach m s n (d + 1) := by
  obtain ⟨p, hchain, hlast, hlen⟩ := h
  refine ⟨p ++ [n], ?_, ?_, by simp [hlen]⟩
  · rw [chain_snoc, hlast]
    exact ⟨hchain, he⟩
  · rw [List.getLastD_eq_getLast?, List.getLast?_concat]
    rfl

lemma hopReach_decompose {m : MazeModel} {s t : Cell} {d : ℕ}
    (h : hopReach m s t (d + 1)) :
    ∃ u : Cell, hopReach m s u d ∧ bfsEdge m u t := by
  obtain ⟨p, hchain, hlast, hlen⟩ := h
  rcases List.eq_nil_or_concat p with rfl | ⟨q, b, rfl⟩
  · exact absurd hlen (by simp)
  · simp only [List.concat_eq_append] at hchain hlast hlen
    rw [chain_snoc] at hchain
    have hb : b = t := by
      rw [List.getLastD_eq_getLast?, List.getLast?_concat] at hlast
      exact hlast
    subst hb
    refine ⟨q.getLastD s, ⟨q, hchain.1, rfl, ?_⟩, hchain.2⟩
    have := hlen
    simp only [List.length_append, List.length_cons, List.length_nil] at this
    omega

lemma hopDist_exists {m : MazeModel} {s t : Cell} {k : ℕ}
    (h : hopReach m s t k) : ∃ d, isHopDist m s t d ∧ d ≤ k := by
  classical
  have hP : ∃ n, hopReach m s t n := ⟨k, h⟩
  exact ⟨Nat.find hP, ⟨Nat.find_spec hP, fun k' hk' => Nat.find_min' hP hk'⟩,
    Nat.find_min' hP h⟩

lemma hopDist_unique {m : MazeModel} {s t : Cell} {d d' : ℕ}
    (h : isHopDist m s t d) (h' : isHopDist m s t d') : d = d' :=
  le_antisymm (h.2 d' h'.1) (h'.2 d h.1)

lemma hopDist_zero {m : MazeModel} {s t : Cell} (h : isHopDist m s t 0) : t = s :=
  hopReach_zero.1 h.1

lemma hopDist_self (m : MazeModel) (s : Cell) : isHopDist m s s 0 :=
  ⟨hopReach_self m s, fun _ _ => Nat.zero_le _⟩

/-- The predecessor of a cell at hop distance d+1 sits at hop distance exactly d. -/
lemma hopDist_pred {m : MazeModel} {s t : Cell} {d : ℕ}
    (h : isHopDist m s t (d + 1)) :
    ∃ u : Cell, isHopDist m s u d ∧ bfsEdge m u t := by
  obtain ⟨u, hu, he⟩ := hopReach_decompose h.1
  obtain ⟨d', ⟨hd'r, hd'min⟩, hd'le⟩ := hopDist_exists hu
  have hge : d ≤ d' := by
    have := h.2 (d' + 1) (hopReach_snoc hd'r he)
    omega
  have : d' = d := le_antisymm hd'le hge
  subst this
  exact ⟨u, ⟨hd'r, hd'min⟩, he⟩

/-! ## C4: invariants of the teleport BFS -/

lemma adjCell_add {c d : Cell} (h : d.1.natAbs + d.2.natAbs = 1) :
    adjCell c (c.1 + d.1, c.2 + d.2) := by
  unfold adjCell
  simp only
  omega

lemma adjCell_mem_pathDirs {c n : Cell} (h : adjCell c n) :
    ∃ d ∈ pathDirs, n = (c.1 + d.1, c.2 + d.2) := by
  obtain ⟨c1, c2⟩ := c
  obtain ⟨n1, n2⟩ := n
  unfold adjCell at h
  simp only at h
  have key : (n1 = c1 ∧ n2 = c2 + 1) ∨ (n1 = c1 ∧ n2 = c2 + -1) ∨
      (n1 = c1 + 1 ∧ n2 = c2) ∨ (n1 = c1 + -1 ∧ n2 = c2) := by omega
  rcases key with ⟨ha, hb⟩ | ⟨ha, hb⟩ | ⟨ha, hb⟩ | ⟨ha, hb⟩
  · exact ⟨(0, 1), by simp [pathDirs], by simp only [Prod.mk.injEq]; omega⟩
  · exact ⟨(0, -1), by simp [pathDirs], by simp only [Prod.mk.injEq]; omega⟩
  · exact ⟨(1, 0), by simp [pathDirs], by simp only [Prod.mk.injEq]; omega⟩
  · exact ⟨(-1, 0), by simp [pathDirs], by simp only [Prod.mk.injEq]; omega⟩

lemma pairwise_le_const {k : ℕ} :
    ∀ l : List ℕ, (∀ x ∈ l, x = k) → l.Pairwise (· ≤ ·) := by
  intro l
  induction l with
  | nil => intro _; exact List.Pairwise.nil
  | cons a l ih =>
    intro h
    refine List.Pairwise.cons ?_ (ih fun x hx => h x (List.mem_cons_of_mem _ hx))
    intro b hb
    rw [h a (List.mem_cons_self _ _), h b (List.mem_cons_of_mem _ hb)]

/-- What one pass of the direction loop of the teleport BFS does to the
queue/visited pair: the queue is extended with fresh in-bounds open neighbours
at distance `cd.2 + 1`, the visited set grows accordingly, every in-bounds open
neighbour in a processed direction ends up visited, and key uniqueness is kept. -/
lemma teleExpand_fold_spec (m : MazeModel) (cd : Cell × ℕ) :
    ∀ (dirs : List Cell), (∀ d ∈ dirs, d.1.natAbs + d.2.natAbs = 1) →
    ∀ (q0 : List (Cell × ℕ)) (v0 : Finset Cell),
      (∀ e ∈ q0, e.1 ∈ v0) → (q0.map Prod.fst).Nodup →
      ∀ r, r = dirs.foldl (teleStep m cd) (q0, v0) →
      ((∃ extra, r.1 = q0 ++ extra ∧
          ∀ e ∈ extra, e.2 = cd.2 + 1 ∧ inBoundsOpen m e.1 = true ∧
            adjCell cd.1 e.1 ∧ e.1 ∉ v0) ∧
        (∀ v ∈ v0, v ∈ r.2) ∧
        (∀ v ∈ r.2, v ∈ v0 ∨ ∃ e ∈ r.1, e.1 = v) ∧
        (∀ d ∈ dirs, inBoundsOpen m (cd.1.1 + d.1, cd.1.2 + d.2) = true →
          (cd.1.1 + d.1, cd.1.2 + d.2) ∈ r.2) ∧
        (∀ e ∈ r.1, e.1 ∈ r.2) ∧
        (r.1.map Prod.fst).Nodup) := by
  intro dirs
  induction dirs with
  | nil =>
    intro _ q0 v0 hkeys hnodup r hr
    rw [List.foldl_nil] at hr
    subst hr
    exact ⟨⟨[], by simp, by simp⟩, fun v hv => hv, fun v hv => Or.inl hv,
      by simp, hkeys, hnodup⟩
  | cons d ds ih =>
    intro hdirs q0 v0 hkeys hnodup r hr
    rw [List.foldl_cons] at hr
    have hd1 : d.1.natAbs + d.2.natAbs = 1 := hdirs d (List.mem_cons_self _ _)
    have hds : ∀ d' ∈ ds, d'.1.natAbs + d'.2.natAbs = 1 :=
      fun d' hd' => hdirs d' (List.mem_cons_of_mem _ hd')
    by_cases hcond : inBoundsOpen m (cd.1.1 + d.1, cd.1.2 + d.2) = true ∧
        (cd.1.1 + d.1, cd.1.2 + d.2) ∉ v0
    · -- the neighbour is pushed
      have hstep : teleStep m cd (q0, v0) d =
          (q0 ++ [((cd.1.1 + d.1, cd.1.2 + d.2), cd.2 + 1)],
           insert (cd.1.1 + d.1, cd.1.2 + d.2) v0) := by
        unfold teleStep
        simp only [if_pos hcond]
      rw [hstep] at hr
      have hkeys' : ∀ e ∈ q0 ++ [((cd.1.1 + d.1, cd.1.2 + d.2), cd.2 + 1)],
          e.1 ∈ insert (cd.1.1 + d.1, cd.1.2 + d.2) v0 := by
        intro e he
        rcases List.mem_append.1 he with h | h
        · exact Finset.mem_insert_of_mem (hkeys e h)
        · rw [List.mem_singleton] at h
          rw [h]
          exact Finset.mem_insert_self _ _
      have hnodup' : ((q0 ++ [((cd.1.1 + d.1, cd.1.2 + d.2), cd.2 + 1)]).map
          Prod.fst).Nodup := by
        rw [List.map_append, List.nodup_append]
        refine ⟨hnodup, List.nodup_singleton _, ?_⟩
        intro a ha hb
        rw [List.map_singleton, List.mem_singleton] at hb
        subst hb
        rcases List.mem_map.1 ha with ⟨e, he, hefst⟩
        refine hcond.2 ?_
        have := hkeys e he
        rw [hefst] at this
        exact this
      obtain ⟨⟨extra, hextra, hextraP⟩, hmono, hrev, hcover, hkeysr, hnodupr⟩ :=
        ih hds _ _ hkeys' hnodup' r hr
      refine ⟨⟨((cd.1.1 + d.1, cd.1.2 + d.2), cd.2 + 1) :: extra, ?_, ?_⟩, ?_, ?_, ?_, hkeysr, hnodupr⟩
      · rw [hextra, List.append_assoc]
        rfl
      · intro e he
        rcases List.mem_cons.1 he with h | h
        · subst h
          exact ⟨rfl, hcond.1, adjCell_add hd1, hcond.2⟩
        · obtain ⟨h1, h2, h3, h4⟩ := hextraP e h
          exact ⟨h1, h2, h3, fun hv => h4 (Finset.mem_insert_of_mem hv)⟩
      · intro v hv
        exact hmono v (Finset.mem_insert_of_mem hv)
      · intro v hv
        rcases hrev v hv with h | h
        · rcases Finset.mem_insert.1 h with h1 | h1
          · refine Or.inr ⟨((cd.1.1 + d.1, cd.1.2 + d.2), cd.2 + 1), ?_, h1.symm⟩
            rw [hextra]
            exact List.mem_append_left _ (List.mem_append_right _ (List.mem_singleton_self _))
          · exact Or.inl h1
        · exact Or.inr h
      · intro d' hd' hopen'
        rcases List.mem_cons.1 hd' with h | h
        · subst h
          exact hmono _ (Finset.mem_insert_self _ _)
        · exact hcover d' h hopen'
    · -- the neighbour is skipped
      have hstep : teleStep m cd (q0, v0) d = (q0, v0) := by
        unfold teleStep
        simp only [if_neg hcond]
      rw [hstep] at hr
      obtain ⟨hex, hmono, hrev, hcover, hkeysr, hnodupr⟩ := ih hds _ _ hkeys hnodup r hr
      refine ⟨hex, hmono, hrev, ?_, hkeysr, hnodupr⟩
      intro d' hd' hopen'
      rcases List.mem_cons.1 hd' with h | h
      · subst h
        have hv : (cd.1.1 + d'.1, cd.1.2 + d'.2) ∈ v0 := by
          by_contra hnv
          exact hcond ⟨hopen', hnv⟩
        exact hmono _ hv
      · exact hcover d' h hopen'

/-- The loop invariant of the teleport BFS, relative to the source cell `src`:
queue distances are sorted and span at most two consecutive values; every queue
entry records the true BFS hop distance of its cell (at most 4, and the cell is
Open unless it is the seed); every cell at hop distance at most the head
distance is already visited; every visited cell either still waits in the
queue, was cut off at distance >= 4, or has all its BFS successors visited; and
every collected candidate is an Open cell at true hop distance 3 or 4. -/
structure TeleInv (m : MazeModel) (src : Cell) (s : TeleState) : Prop where
  sortedQ : List.Sorted (· ≤ ·) (s.queue.map Prod.snd)
  bound : ∀ e0 rest, s.queue = e0 :: rest → ∀ e ∈ s.queue, e.2 ≤ e0.2 + 1
  entries : ∀ e ∈ s.queue, isHopDist m src e.1 e.2 ∧ e.2 ≤ 4 ∧
    (0 < e.2 → inBoundsOpen m e.1 = true)
  keysVisited : ∀ e ∈ s.queue, e.1 ∈ s.visited
  keysNodup : (s.queue.map Prod.fst).Nodup
  frontier : ∀ e0 rest, s.queue = e0 :: rest →
    ∀ u d, isHopDist m src u d → d ≤ e0.2 → u ∈ s.visited
  closed : ∀ u ∈ s.visited,
    (∃ d, (u, d) ∈ s.queue) ∨ (∃ d, isHopDist m src u d ∧ 4 ≤ d) ∨
    (∀ n : Cell, bfsEdge m u n → n ∈ s.visited)
  cands : ∀ e ∈ s.candidates, isHopDist m src e.1 e.2 ∧ (e.2 = 3 ∨ e.2 = 4) ∧
    inBoundsOpen m e.1 = true

lemma sorted_head_le {l : List (Cell × ℕ)} {e0 : Cell × ℕ} {rest : List (Cell × ℕ)}
    (hs : List.Sorted (· ≤ ·) (l.map Prod.snd)) (heq : l = e0 :: rest) :
    ∀ e ∈ l, e0.2 ≤ e.2 := by
  subst heq
  rw [List.map_cons, List.sorted_cons] at hs
  intro e he
  rcases List.mem_cons.1 he with rfl | hh
  · exact le_refl _
  · exact hs.1 e.2 (List.mem_map_of_mem _ hh)

lemma cands_inv_step (m : MazeModel) (src : Cell) (cd : Cell × ℕ)
    (cands : List (Cell × ℕ))
    (hcd : isHopDist m src cd.1 cd.2 ∧ cd.2 ≤ 4 ∧ (0 < cd.2 → inBoundsOpen m cd.1 = true))
    (hc : ∀ e ∈ cands, isHopDist m src e.1 e.2 ∧ (e.2 = 3 ∨ e.2 = 4) ∧
      inBoundsOpen m e.1 = true) :
    ∀ e ∈ (if 3 ≤ cd.2 ∧ cd.2 ≤ 4 then cands ++ [cd] else cands),
      isHopDist m src e.1 e.2 ∧ (e.2 = 3 ∨ e.2 = 4) ∧ inBoundsOpen m e.1 = true := by
  intro e he
  by_cases h34 : 3 ≤ cd.2 ∧ cd.2 ≤ 4
  · rw [if_pos h34] at he
    rcases List.mem_append.1 he with h | h
    · exact hc e h
    · rw [List.mem_singleton] at h
      subst h
      exact ⟨hcd.1, by omega, hcd.2.2 (by omega)⟩
  · rw [if_neg h34] at he
    exact hc e he

lemma teleInv_continue (m : MazeModel) (src : Cell) (cd : Cell × ℕ)
    (rest : List (Cell × ℕ)) (visited : Finset Cell) (cands : List (Cell × ℕ))
    (hs : TeleInv m src ⟨cd :: rest, visited, cands⟩) (h4 : 4 ≤ cd.2) :
    TeleInv m src ⟨rest, visited,
      if 3 ≤ cd.2 ∧ cd.2 ≤ 4 then cands ++ [cd] else cands⟩ := by
  obtain ⟨sortedQ, bound, entries, keysVisited, keysNodup, frontier, closed, cands_inv⟩ := hs
  dsimp only at sortedQ bound entries keysVisited keysNodup frontier closed cands_inv
  have hcdE := entries cd (List.mem_cons_self _ _)
  have hd4 : cd.2 = 4 := by
    have := hcdE.2.1
    omega
  have hge : ∀ e ∈ rest, cd.2 ≤ e.2 := by
    intro e he
    exact sorted_head_le sortedQ rfl e (List.mem_cons_of_mem _ he)
  have sortedQ' : List.Sorted (· ≤ ·) (cd.2 :: rest.map Prod.snd) := by
    simpa using sortedQ
  have keysNodup' : (cd.1 :: rest.map Prod.fst).Nodup := by
    simpa using keysNodup
  constructor
  · exact (List.sorted_cons.1 sortedQ').2
  · intro e0 rest2 heq e he
    dsimp only at heq he ⊢
    have he0 : cd.2 ≤ e0.2 := hge e0 (by rw [heq]; exact List.mem_cons_self _ _)
    have heb : e.2 ≤ cd.2 + 1 :=
      bound cd rest rfl e (List.mem_cons_of_mem _ he)
    omega
  · intro e he
    dsimp only at he
    exact entries e (List.mem_cons_of_mem _ he)
  · intro e he
    dsimp only at he ⊢
    exact keysVisited e (List.mem_cons_of_mem _ he)
  · exact (List.nodup_cons.1 keysNodup').2
  · intro e0 rest2 heq u d hu hle
    dsimp only at heq ⊢
    have he0m : e0 ∈ rest := by rw [heq]; exact List.mem_cons_self _ _
    have he0ub : e0.2 ≤ cd.2 + 1 := bound cd rest rfl e0 (List.mem_cons_of_mem _ he0m)
    have he0E := entries e0 (List.mem_cons_of_mem _ he0m)
    have he0le4 : e0.2 ≤ 4 := he0E.2.1
    exact frontier cd rest rfl u d hu (by omega)
  · intro u hu
    dsimp only at hu ⊢
    rcases closed u hu with ⟨du, hdu⟩ | h2 | h3
    · rcases List.mem_cons.1 hdu with hh | hh
      · right; left
        have hufst : u = cd.1 := congrArg Prod.fst hh
        refine ⟨cd.2, ?_, h4⟩
        rw [hufst]
        exact hcdE.1
      · exact Or.inl ⟨du, hh⟩
    · exact Or.inr (Or.inl h2)
    · exact Or.inr (Or.inr h3)
  · intro e he
    dsimp only at he
    exact cands_inv_step m src cd cands hcdE cands_inv e he

lemma teleInv_expand (m : MazeModel) (src : Cell) (cd : Cell × ℕ)
    (rest : List (Cell × ℕ)) (visited : Finset Cell) (cands : List (Cell × ℕ))
    (hs : TeleInv m src ⟨cd :: rest, visited, cands⟩) (h4 : ¬ 4 ≤ cd.2) :
    TeleInv m src ⟨(teleExpand m cd (rest, visited)).1,
      (teleExpand m cd (rest, visited)).2,
      if 3 ≤ cd.2 ∧ cd.2 ≤ 4 then cands ++ [cd] else cands⟩ := by
  obtain ⟨sortedQ, bound, entries, keysVisited, keysNodup, frontier, closed, cands_inv⟩ := hs
  dsimp only at sortedQ bound entries keysVisited keysNodup frontier closed cands_inv
  have hcdE := entries cd (List.mem_cons_self _ _)
  have hD3 : cd.2 ≤ 3 := by omega
  have sortedQ' : List.Sorted (· ≤ ·) (cd.2 :: rest.map Prod.snd) := by
    simpa using sortedQ
  have keysNodup' : (cd.1 :: rest.map Prod.fst).Nodup := by
    simpa using keysNodup
  have hrest_keys : ∀ e ∈ rest, e.1 ∈ visited :=
    fun e he => keysVisited e (List.mem_cons_of_mem _ he)
  have hrest_nodup : (rest.map Prod.fst).Nodup := (List.nodup_cons.1 keysNodup').2
  obtain ⟨⟨extra, hq', hextraP⟩, hmono, hrev, hcover, hkeysr, hnodupr⟩ :=
    teleExpand_fold_spec m cd pathDirs (by decide) rest visited hrest_keys hrest_nodup
      (teleExpand m cd (rest, visited)) rfl
  have hcover' : ∀ n : Cell, bfsEdge m cd.1 n → n ∈ (teleExpand m cd (rest, visited)).2 := by
    intro n hn
    obtain ⟨d, hdmem, hneq⟩ := adjCell_mem_pathDirs hn.1
    subst hneq
    exact hcover d hdmem hn.2
  have hge_rest : ∀ e ∈ rest, cd.2 ≤ e.2 := by
    intro e he
    exact sorted_head_le sortedQ rfl e (List.mem_cons_of_mem _ he)
  have hle_rest : ∀ e ∈ rest, e.2 ≤ cd.2 + 1 :=
    fun e he => bound cd rest rfl e (List.mem_cons_of_mem _ he)
  have hnewDist : ∀ e ∈ extra, isHopDist m src e.1 (cd.2 + 1) := by
    intro e he
    obtain ⟨hd2, hopen, hadj, hnv⟩ := hextraP e he
    have hup : hopReach m src e.1 (cd.2 + 1) := hopReach_snoc hcdE.1.1 ⟨hadj, hopen⟩
    obtain ⟨d', hd', hd'le⟩ := hopDist_exists hup
    by_cases hle : d' ≤ cd.2
    · exact absurd (frontier cd rest rfl e.1 d' hd' hle) hnv
    · have heq : d' = cd.2 + 1 := by omega
      subst heq
      exact hd'
  have hall_le' : ∀ e ∈ (teleExpand m cd (rest, visited)).1, e.2 ≤ cd.2 + 1 := by
    intro e he
    rw [hq'] at he
    rcases List.mem_append.1 he with h | h
    · exact hle_rest e h
    · exact le_of_eq (hextraP e h).1
  have hall_ge' : ∀ e ∈ (teleExpand m cd (rest, visited)).1, cd.2 ≤ e.2 := by
    intro e he
    rw [hq'] at he
    rcases List.mem_append.1 he with h | h
    · exact hge_rest e h
    · rw [(hextraP e h).1]
      omega
  have hsorted' : List.Sorted (· ≤ ·) ((teleExpand m cd (rest, visited)).1.map Prod.snd) := by
    rw [hq', List.map_append]
    refine List.pairwise_append.2 ⟨(List.sorted_cons.1 sortedQ').2, ?_, ?_⟩
    · exact pairwise_le_const (extra.map Prod.snd)
        (fun x hx => by
          rcases List.mem_map.1 hx with ⟨e, he, hex⟩
          rw [← hex]
          exact (hextraP e he).1)
    · intro a ha b hb
      rcases List.mem_map.1 ha with ⟨e, he, hea⟩
      rcases List.mem_map.1 hb with ⟨e', he', heb⟩
      rw [← hea, ← heb, (hextraP e' he').1]
      exact hle_rest e he
  constructor
  · exact hsorted'
  · intro e0 rest2 heq e he
    dsimp only at heq he ⊢
    have he0m : e0 ∈ (teleExpand m cd (rest, visited)).1 := by
      rw [heq]; exact List.mem_cons_self _ _
    have he0ge : cd.2 ≤ e0.2 := hall_ge' e0 he0m
    have := hall_le' e he
    omega
  · intro e he
    dsimp only at he
    rw [hq'] at he
    rcases List.mem_append.1 he with h | h
    · exact entries e (List.mem_cons_of_mem _ h)
    · obtain ⟨hd2, hopen, hadj, hnv⟩ := hextraP e h
      rw [hd2]
      exact ⟨hnewDist e h, by omega, fun _ => hopen⟩
  · exact hkeysr
  · exact hnodupr
  · intro e0 rest2 heq u d hu hle
    dsimp only at heq ⊢
    have he0m : e0 ∈ (teleExpand m cd (rest, visited)).1 := by
      rw [heq]; exact List.mem_cons_self _ _
    have he0le : e0.2 ≤ cd.2 + 1 := hall_le' e0 he0m
    by_cases hdle : d ≤ cd.2
    · exact hmono u (frontier cd rest rfl u d hu hdle)
    · have hdeq : d = cd.2 + 1 := by omega
      subst hdeq
      obtain ⟨p0, hp0, hedge⟩ := hopDist_pred hu
      have hp0v : p0 ∈ visited := frontier cd rest rfl p0 cd.2 hp0 le_rfl
      rcases closed p0 hp0v with ⟨dp, hdp⟩ | ⟨dd, hdd, hdd4⟩ | hcl
      · have hdpE := entries (p0, dp) hdp
        have hdpeq : dp = cd.2 := hopDist_unique hdpE.1 hp0
        rcases List.mem_cons.1 hdp with hh | hh
        · have hp0c : p0 = cd.1 := congrArg Prod.fst hh
          refine hcover' u ?_
          rw [← hp0c]
          exact hedge
        · exfalso
          have hmem' : (p0, dp) ∈ (teleExpand m cd (rest, visited)).1 := by
            rw [hq']
            exact List.mem_append_left _ hh
          have := sorted_head_le hsorted' heq (p0, dp) hmem'
          simp only at this
          omega
      · exfalso
        have := hopDist_unique hdd hp0
        omega
      · exact hmono u (hcl u hedge)
  · intro u hu'
    dsimp only at hu' ⊢
    rcases hrev u hu' with huv | ⟨e, heq', hefst⟩
    · rcases closed u huv with ⟨du, hdu⟩ | h2 | h3
      · rcases List.mem_cons.1 hdu with hh | hh
        · have huc : u = cd.1 := congrArg Prod.fst hh
          right; right
          intro n hn
          refine hcover' n ?_
          rw [← huc]
          exact hn
        · refine Or.inl ⟨du, ?_⟩
          rw [hq']
          exact List.mem_append_left _ hh
      · exact Or.inr (Or.inl h2)
      · right; right
        intro n hn
        exact hmono n (h3 n hn)
    · left
      refine ⟨e.2, ?_⟩
      have hpe : (u, e.2) = e := by
        rw [← hefst]
      rw [hpe]
      exact heq'
  · intro e he
    dsimp only at he
    exact cands_inv_step m src cd cands hcdE cands_inv e he

lemma teleLoop_inv (m : MazeModel) (src : Cell) :
    ∀ (fuel : ℕ) (s : TeleState), TeleInv m src s → TeleInv m src (teleLoop m fuel s) := by
  intro fuel
  induction fuel with
  | zero =>
    intro s hs
    exact hs
  | succ fuel ih =>
    intro s hs
    obtain ⟨queue, visited, cands⟩ := s
    cases queue with
    | nil => exact hs
    | cons cd rest =>
      by_cases h4 : 4 ≤ cd.2
      · rw [teleLoop]
        simp only [h4, if_true]
        exact ih _ (teleInv_continue m src cd rest visited cands hs h4)
      · rw [teleLoop]
        simp only [h4, if_false]
        exact ih _ (teleInv_expand m src cd rest visited cands hs h4)

lemma teleInv_init (m : MazeModel) (src : Cell) :
    TeleInv m src ⟨[(src, 0)], {src}, []⟩ := by
  constructor
  · simp
  · intro e0 rest heq e he
    dsimp only at heq he
    rw [heq] at he
    cases heq
    rcases List.mem_cons.1 he with rfl | hh
    · omega
    · exact absurd hh (List.not_mem_nil _)
  · intro e he
    dsimp only at he
    rw [List.mem_singleton] at he
    subst he
    exact ⟨hopDist_self m src, by omega, fun h => absurd h (by omega)⟩
  · intro e he
    dsimp only at he ⊢
    rw [List.mem_singleton] at he
    subst he
    exact Finset.mem_singleton_self _
  · simp
  · intro e0 rest heq u d hu hle
    dsimp only at heq ⊢
    cases heq
    have hd0 : d = 0 := by omega
    subst hd0
    have := hopDist_zero hu
    subst this
    exact Finset.mem_singleton_self _
  · intro u hu
    dsimp only at hu ⊢
    rw [Finset.mem_singleton] at hu
    subst hu
    exact Or.inl ⟨0, List.mem_singleton_self _⟩
  · intro e he
    exact absurd he (List.not_mem_nil _)

/-- C4: the ring-candidate search of `findTeleportPosition` returns only Open
cells whose true BFS hop distance from the exit cell is exactly 3 or 4; and when
no such cell exists, the operation returns null rather than failing. -/
theorem findTeleport_ring_spec (m : MazeModel) :
    (∀ cd ∈ findTeleportCandidates m,
      inBoundsOpen m cd.1 = true ∧
      isHopDist m (worldToGrid (exitPositionX m) (exitPositionZ m)) cd.1 cd.2 ∧
      (cd.2 = 3 ∨ cd.2 = 4)) ∧
    (∀ rand : ℕ,
      (¬ ∃ c : Cell, ∃ d : ℕ,
        inBoundsOpen m c = true ∧
        isHopDist m (worldToGrid (exitPositionX m) (exitPositionZ m)) c d ∧
        (d = 3 ∨ d = 4)) →
      findTeleportPosition m rand = none) := by
  have hinv := teleLoop_inv m (worldToGrid (exitPositionX m) (exitPositionZ m))
    (2 * m.width * m.height + 2)
    ⟨[(worldToGrid (exitPositionX m) (exitPositionZ m), 0)],
     {worldToGrid (exitPositionX m) (exitPositionZ m)}, []⟩
    (teleInv_init m (worldToGrid (exitPositionX m) (exitPositionZ m)))
  have main : ∀ cd ∈ findTeleportCandidates m,
      inBoundsOpen m cd.1 = true ∧
      isHopDist m (worldToGrid (exitPositionX m) (exitPositionZ m)) cd.1 cd.2 ∧
      (cd.2 = 3 ∨ cd.2 = 4) := by
    intro cd hcd
    have hmem : cd ∈ (teleLoop m (2 * m.width * m.height + 2)
        ⟨[(worldToGrid (exitPositionX m) (exitPositionZ m), 0)],
         {worldToGrid (exitPositionX m) (exitPositionZ m)}, []⟩).candidates := hcd
    have := hinv.cands cd hmem
    exact ⟨this.2.2, this.1, this.2.1⟩
  refine ⟨main, ?_⟩
  intro rand hnone
  unfold findTeleportPosition
  by_cases hlen : (findTeleportCandidates m).length = 0
  · simp only [hlen, if_true]
  · exfalso
    have hne : findTeleportCandidates m ≠ [] := by
      intro h
      rw [h] at hlen
      exact hlen rfl
    obtain ⟨cd, hcd⟩ := List.exists_mem_of_ne_nil _ hne
    obtain ⟨hopen, hdist, h34⟩ := main cd hcd
    exact hnone ⟨cd.1, cd.2, hopen, hdist, h34⟩

/-- The concrete corridor maze used to witness the C4 theorem: a 7 x 7 grid
whose open cells form a corridor ending at the exit (5,5); the cell (2,5) sits
at hop distance exactly 3 from the exit. -/
def c4Maze : MazeModel :=
  ⟨7, 7,
   [[1, 1, 1, 1, 1, 1, 1],
    [1, 1, 1, 1, 1, 1, 1],
    [1, 1, 1, 1, 1, 1, 1],
    [1, 1, 1, 1, 1, 1, 1],
    [1, 1, 1, 1, 1, 1, 1],
    [1, 1, 0, 0, 0, 0, 1],
    [1, 1, 1, 1, 1, 1, 1]]⟩

lemma exitCell_c4 : worldToGrid (exitPositionX c4Maze) (exitPositionZ c4Maze) =
    ((5 : ℤ), (5 : ℤ)) := by
  norm_num [worldToGrid, jsRound, CELL_SIZE, exitPositionX, exitPositionZ, c4Maze]

lemma teleCands_c4_eval :
    findTeleportCandidates c4Maze = [(((2 : ℤ), (5 : ℤ)), 3)] := by
  rw [findTeleportCandidates, exitCell_c4]
  decide

theorem findTeleport_ring_spec_witness :
    inBoundsOpen c4Maze ((2 : ℤ), (5 : ℤ)) = true ∧ (((3 : ℕ) = 3) ∨ ((3 : ℕ) = 4)) :=
  ⟨((findTeleport_ring_spec c4Maze).1 (((2 : ℤ), (5 : ℤ)), 3)
      (by rw [teleCands_c4_eval]; exact List.mem_singleton_self _)).1,
   ((findTeleport_ring_spec c4Maze).1 (((2 : ℤ), (5 : ℤ)), 3)
      (by rw [teleCands_c4_eval]; exact List.mem_singleton_self _)).2.2⟩

/-! ## maze.js: maze generation (createEmptyGrid / carvePassages) -/

/-- `Maze.createEmptyGrid`: all cells Wall (value 1). -/
def createEmptyGrid (w h : ℕ) : GridRows :=
  List.replicate h (List.replicate w 1)

/-- The four room directions of `getUnvisitedNeighbors`, in source order. -/
def carveDirs : List Cell := [(0, -2), (0, 2), (-2, 0), (2, 0)]

/-- `Maze.getUnvisitedNeighbors`: the strictly interior, unvisited room
neighbours two cells away. -/
def getUnvisitedNeighbors (w h : ℕ) (x z : ℤ) (visited : Finset Cell) : List Cell :=
  carveDirs.filterMap fun d =>
    let nx := x + d.1
    let nz := z + d.2
    if 0 < nx ∧ nx < (w : ℤ) - 1 ∧ 0 < nz ∧ nz < (h : ℤ) - 1 ∧ (nx, nz) ∉ visited
    then some (nx, nz) else none

structure CarveState where
  grid : GridRows
  visited : Finset Cell
  stack : List Cell
  k : ℕ

/-- The `while (stack.length > 0)` loop of `carvePassages`, fuelled: peek the
stack top; if it has no unvisited room neighbours pop it, otherwise pick one
(random index modulo the neighbour count), carve the connecting wall cell and
the chosen room to Open, mark it visited and push it. -/
def carveLoop (w h : ℕ) (rand : ℕ → ℕ) : ℕ → CarveState → CarveState
  | 0, s => s
  | fuel + 1, s =>
    match s.stack with
    | [] => s
    | cur :: rest =>
      let neighbors := getUnvisitedNeighbors w h cur.1 cur.2 s.visited
      if neighbors.isEmpty then
        carveLoop w h rand fuel { s with stack := rest }
      else
        let next := neighbors.getD (rand s.k % neighbors.length) (0, 0)
        let wallX := cur.1 + (next.1 - cur.1) / 2
        let wallZ := cur.2 + (next.2 - cur.2) / 2
        carveLoop w h rand fuel
          { grid := setCell (setCell s.grid wallX wallZ 0) next.1 next.2 0
            visited := insert next s.visited
            stack := next :: cur :: rest
            k := s.k + 1 }

/-- `Maze.carvePassages`: open the start room (1,1) and run the carving loop.
The fuel `2*w*h + 1` dominates the loop's termination measure
`2 * #unvisited-cells + stack length` (a push freshly visits one in-bounds cell
and lengthens the stack by one, a pop shortens the stack). -/
def carvePassages (w h : ℕ) (rand : ℕ → ℕ) : GridRows :=
  let g0 := setCell (createEmptyGrid w h) 1 1 0
  (carveLoop w h rand (2 * w * h + 1) ⟨g0, {((1 : ℤ), (1 : ℤ))}, [(1, 1)], 0⟩).grid

/-- The maze model produced by generation at the given odd size. -/
def generatedMaze (w h : ℕ) (rand : ℕ → ℕ) : MazeModel :=
  ⟨w, h, carvePassages w h rand⟩

/-! ## Grid shape and cell-update lemmas -/

/-- Well-formedness of the row structure: `h` rows of width `w`. -/
def GridShape (w h : ℕ) (g : GridRows) : Prop :=
  g.length = h ∧ ∀ row ∈ g, row.length = w

lemma gridShape_createEmpty (w h : ℕ) : GridShape w h (createEmptyGrid w h) := by
  constructor
  · exact List.length_replicate _ _
  · intro row hrow
    rw [List.eq_of_mem_replicate hrow]
    exact List.length_replicate _ _

lemma gridShape_setCell {w h : ℕ} {g : GridRows} (hs : GridShape w h g)
    (x z : ℤ) (v : ℕ) : GridShape w h (setCell g x z v) := by
  obtain ⟨hlen, hrow⟩ := hs
  by_cases hz : z.toNat < g.length
  · constructor
    · rw [setCell, List.length_set]
      exact hlen
    · intro row hmem
      rcases List.mem_or_eq_of_mem_set hmem with h1 | h1
      · exact hrow row h1
      · rw [h1, List.length_set, List.getD_eq_getElem g [] hz]
        exact hrow _ (List.getElem_mem hz)
  · have hnoop : setCell g x z v = g := by
      rw [setCell]
      exact List.set_eq_of_length_le (by omega)
    rw [hnoop]
    exact ⟨hlen, hrow⟩

lemma getCell_createEmpty (w h : ℕ) (x z : ℤ) :
    getCell (createEmptyGrid w h) x z = 1 := by
  unfold getCell createEmptyGrid
  have hrow : (List.replicate h (List.replicate w 1)).getD z.toNat [] = List.replicate w 1 ∨
      (List.replicate h (List.replicate w 1)).getD z.toNat [] = ([] : List ℕ) := by
    by_cases hz : z.toNat < h
    · left
      rw [List.getD_eq_getElem _ _ (by simp [hz]), List.getElem_replicate]
    · right
      rw [List.getD_eq_default _ _ (by simp; omega)]
  rcases hrow with hr | hr <;> rw [hr]
  · by_cases hx : x.toNat < w
    · rw [List.getD_eq_getElem _ _ (by simp [hx]), List.getElem_replicate]
    · rw [List.getD_eq_default _ _ (by simp; omega)]
  · rw [List.getD_eq_default _ _ (by simp)]

lemma getD_set_general {α : Type} (l : List α) (n m : ℕ) (a d : α) :
    (l.set n a).getD m d = if n = m ∧ n < l.length then a else l.getD m d := by
  by_cases h1 : n = m ∧ n < l.length
  · obtain ⟨rfl, h2⟩ := h1
    rw [if_pos ⟨rfl, h2⟩, List.getD_eq_getElem?_getD, List.getElem?_set_eq h2]
    rfl
  · rw [if_neg h1]
    by_cases h2 : n = m
    · subst h2
      have h3 : l.length ≤ n := by
        by_contra hcon
        exact h1 ⟨rfl, by omega⟩
      rw [List.set_eq_of_length_le h3]
    · rw [List.getD_eq_getElem?_getD, List.getElem?_set_ne h2,
        ← List.getD_eq_getElem?_getD]

/-- The master description of a single cell write. -/
lemma getCell_setCell (g : GridRows) (x z : ℤ) (v : ℕ) (x' z' : ℤ) :
    getCell (setCell g x z v) x' z' =
      if z.toNat = z'.toNat ∧ z.toNat < g.length ∧ x.toNat = x'.toNat ∧
          x.toNat < (g.getD z.toNat []).length
      then v else getCell g x' z' := by
  unfold getCell setCell
  rw [getD_set_general]
  by_cases hz : z.toNat = z'.toNat ∧ z.toNat < g.length
  · rw [if_pos hz]
    obtain ⟨hz1, hz2⟩ := hz
    rw [getD_set_general]
    by_cases hx : x.toNat = x'.toNat ∧ x.toNat < (g.getD z.toNat []).length
    · rw [if_pos hx, if_pos ⟨hz1, hz2, hx.1, hx.2⟩]
    · rw [if_neg hx, if_neg (by tauto), hz1]
  · rw [if_neg hz, if_neg (by tauto)]

lemma getCell_setCell_ne (g : GridRows) (x z : ℤ) (v : ℕ) (x' z' : ℤ)
    (hne : x.toNat ≠ x'.toNat ∨ z.toNat ≠ z'.toNat) :
    getCell (setCell g x z v) x' z' = getCell g x' z' := by
  rw [getCell_setCell, if_neg (by tauto)]

lemma getCell_setCell_cases (g : GridRows) (x z : ℤ) (v : ℕ) (x' z' : ℤ) :
    getCell (setCell g x z v) x' z' = v ∨
    getCell (setCell g x z v) x' z' = getCell g x' z' := by
  rw [getCell_setCell]
  by_cases h : z.toNat = z'.toNat ∧ z.toNat < g.length ∧ x.toNat = x'.toNat ∧
      x.toNat < (g.getD z.toNat []).length
  · rw [if_pos h]
    exact Or.inl rfl
  · rw [if_neg h]
    exact Or.inr rfl

lemma getCell_setCell_same {w h : ℕ} {g : GridRows} (hs : GridShape w h g)
    {x z : ℤ} (hx0 : 0 ≤ x) (hxw : x < (w : ℤ)) (hz0 : 0 ≤ z) (hzh : z < (h : ℤ))
    (v : ℕ) : getCell (setCell g x z v) x z = v := by
  have hzl : z.toNat < g.length := by
    rw [hs.1]
    omega
  have hrowlen : (g.getD z.toNat []).length = w := by
    rw [List.getD_eq_getElem _ _ hzl]
    exact hs.2 _ (List.getElem_mem hzl)
  rw [getCell_setCell, if_pos ⟨rfl, hzl, rfl, by rw [hrowlen]; omega⟩]

/-! ## Rooms, carving steps and midpoints -/

/-- A room cell: both coordinates odd, strictly inside the border. -/
def isRoom (w h : ℕ) (p : Cell) : Prop :=
  p.1 % 2 = 1 ∧ p.2 % 2 = 1 ∧
  0 < p.1 ∧ p.1 < (w : ℤ) - 1 ∧ 0 < p.2 ∧ p.2 < (h : ℤ) - 1

/-- A move between rooms two cells apart along one axis. -/
def isRoomStep (a b : Cell) : Prop :=
  (b.1 = a.1 ∧ (b.2 = a.2 + 2 ∨ b.2 = a.2 - 2)) ∨
  (b.2 = a.2 ∧ (b.1 = a.1 + 2 ∨ b.1 = a.1 - 2))

/-- The wall cell carved between `current` and `next` in `carvePassages`. -/
def midPt (a b : Cell) : Cell :=
  (a.1 + (b.1 - a.1) / 2, a.2 + (b.2 - a.2) / 2)

/-- The Open-cell predicate over a raw grid (Prop form of `inBoundsOpen`). -/
def openCellG (w h : ℕ) (g : GridRows) (q : Cell) : Prop :=
  0 ≤ q.1 ∧ q.1 < (w : ℤ) ∧ 0 ≤ q.2 ∧ q.2 < (h : ℤ) ∧ getCell g q.1 q.2 = 0

lemma openCellG_iff_inBoundsOpen (w h : ℕ) (g : GridRows) (q : Cell) :
    openCellG w h g q ↔ inBoundsOpen ⟨w, h, g⟩ q = true := by
  unfold openCellG inBoundsOpen
  simp only [Bool.and_eq_true, decide_eq_true_eq]
  tauto

lemma midPt_cases {a b : Cell} (h : isRoomStep a b) :
    (b.1 = a.1 ∧ b.2 = a.2 + 2 ∧ midPt a b = (a.1, a.2 + 1)) ∨
    (b.1 = a.1 ∧ b.2 = a.2 - 2 ∧ midPt a b = (a.1, a.2 - 1)) ∨
    (b.2 = a.2 ∧ b.1 = a.1 + 2 ∧ midPt a b = (a.1 + 1, a.2)) ∨
    (b.2 = a.2 ∧ b.1 = a.1 - 2 ∧ midPt a b = (a.1 - 1, a.2)) := by
  unfold midPt
  rcases h with ⟨h1, h2 | h2⟩ | ⟨h1, h2 | h2⟩
  · refine Or.inl ⟨h1, h2, ?_⟩
    simp only [Prod.mk.injEq]
    omega
  · refine Or.inr (Or.inl ⟨h1, h2, ?_⟩)
    simp only [Prod.mk.injEq]
    omega
  · refine Or.inr (Or.inr (Or.inl ⟨h1, h2, ?_⟩))
    simp only [Prod.mk.injEq]
    omega
  · refine Or.inr (Or.inr (Or.inr ⟨h1, h2, ?_⟩))
    simp only [Prod.mk.injEq]
    omega

/-- Midpoints of carved edges have exactly one odd coordinate (sum of the two
coordinate parities is 1), while rooms have both odd. -/
lemma midPt_parity {a b : Cell} (h : isRoomStep a b)
    (ha : a.1 % 2 = 1 ∧ a.2 % 2 = 1) :
    ((midPt a b).1 % 2 = 1 ∧ (midPt a b).2 % 2 = 0) ∨
    ((midPt a b).1 % 2 = 0 ∧ (midPt a b).2 % 2 = 1) := by
  rcases midPt_cases h with ⟨h1, h2, h3⟩ | ⟨h1, h2, h3⟩ | ⟨h1, h2, h3⟩ | ⟨h1, h2, h3⟩ <;>
    rw [h3] <;> simp only <;> omega

/-- A midpoint determines its unordered pair of endpoint rooms. -/
lemma midPt_pair_eq {a b c d : Cell} (hab : isRoomStep a b) (hcd : isRoomStep c d)
    (ha : a.1 % 2 = 1 ∧ a.2 % 2 = 1) (hc : c.1 % 2 = 1 ∧ c.2 % 2 = 1)
    (heq : midPt a b = midPt c d) :
    (a = c ∧ b = d) ∨ (a = d ∧ b = c) := by
  obtain ⟨a1, a2⟩ := a
  obtain ⟨b1, b2⟩ := b
  obtain ⟨c1, c2⟩ := c
  obtain ⟨d1, d2⟩ := d
  rcases midPt_cases hab with ⟨h1, h2, h3⟩ | ⟨h1, h2, h3⟩ | ⟨h1, h2, h3⟩ | ⟨h1, h2, h3⟩ <;>
    rcases midPt_cases hcd with ⟨g1, g2, g3⟩ | ⟨g1, g2, g3⟩ | ⟨g1, g2, g3⟩ | ⟨g1, g2, g3⟩ <;>
    rw [h3, g3] at heq <;>
    simp only [Prod.mk.injEq] at heq h1 h2 g1 g2 ⊢ <;>
    simp only at ha hc <;>
    omega

lemma isRoomStep_symm {a b : Cell} (h : isRoomStep a b) : isRoomStep b a := by
  unfold isRoomStep at *
  omega

lemma isRoomStep_parity {a b : Cell} (h : isRoomStep a b)
    (ha : a.1 % 2 = 1 ∧ a.2 % 2 = 1) : b.1 % 2 = 1 ∧ b.2 % 2 = 1 := by
  unfold isRoomStep at h
  omega

/-- Membership in `getUnvisitedNeighbors`. -/
lemma mem_getUnvisitedNeighbors {w h : ℕ} {x z : ℤ} {visited : Finset Cell} {n : Cell} :
    n ∈ getUnvisitedNeighbors w h x z visited ↔
      (∃ d ∈ carveDirs, n = (x + d.1, z + d.2)) ∧
      0 < n.1 ∧ n.1 < (w : ℤ) - 1 ∧ 0 < n.2 ∧ n.2 < (h : ℤ) - 1 ∧ n ∉ visited := by
  unfold getUnvisitedNeighbors
  rw [List.mem_filterMap]
  constructor
  · rintro ⟨d, hd, hopt⟩
    by_cases hcond : 0 < x + d.1 ∧ x + d.1 < (w : ℤ) - 1 ∧ 0 < z + d.2 ∧
        z + d.2 < (h : ℤ) - 1 ∧ (x + d.1, z + d.2) ∉ visited
    · rw [if_pos hcond] at hopt
      injection hopt with hopt
      subst hopt
      exact ⟨⟨d, hd, rfl⟩, hcond.1, hcond.2.1, hcond.2.2.1, hcond.2.2.2.1, hcond.2.2.2.2⟩
    · rw [if_neg hcond] at hopt
      exact Option.noConfusion hopt
  · rintro ⟨⟨d, hd, hn⟩, h1, h2, h3, h4, h5⟩
    refine ⟨d, hd, ?_⟩
    subst hn
    rw [if_pos ⟨h1, h2, h3, h4, h5⟩]

/-- A room step from a room cell is exactly a `carveDirs` displacement. -/
lemma isRoomStep_iff_carveDirs {v n : Cell} :
    isRoomStep v n ↔ ∃ d ∈ carveDirs, n = (v.1 + d.1, v.2 + d.2) := by
  constructor
  · intro h
    obtain ⟨v1, v2⟩ := v
    obtain ⟨n1, n2⟩ := n
    rcases h with ⟨h1, h2 | h2⟩ | ⟨h1, h2 | h2⟩
    · exact ⟨(0, 2), by simp [carveDirs], by simp only [Prod.mk.injEq]; omega⟩
    · exact ⟨(0, -2), by simp [carveDirs], by simp only [Prod.mk.injEq]; omega⟩
    · exact ⟨(2, 0), by simp [carveDirs], by simp only [Prod.mk.injEq]; omega⟩
    · exact ⟨(-2, 0), by simp [carveDirs], by simp only [Prod.mk.injEq]; omega⟩
  · rintro ⟨d, hd, rfl⟩
    obtain ⟨v1, v2⟩ := v
    simp only [carveDirs, List.mem_cons, List.not_mem_nil, or_false] at hd
    unfold isRoomStep
    rcases hd with rfl | rfl | rfl | rfl <;> dsimp only <;> omega

lemma toNat_ne_of_ne {a b : ℤ} (ha : 0 ≤ a) (hb : 0 ≤ b) (h : a ≠ b) :
    a.toNat ≠ b.toNat := by omega

/-- Opening one in-bounds cell adds exactly that cell to the Open set. -/
lemma openCellG_setCell_zero {w h : ℕ} {g : GridRows} (hs : GridShape w h g)
    {x z : ℤ} (hx0 : 0 ≤ x) (hxw : x < (w : ℤ)) (hz0 : 0 ≤ z) (hzh : z < (h : ℤ))
    (q : Cell) :
    openCellG w h (setCell g x z 0) q ↔ openCellG w h g q ∨ q = (x, z) := by
  constructor
  · rintro ⟨hq1, hq2, hq3, hq4, hq5⟩
    by_cases heq : q = (x, z)
    · exact Or.inr heq
    · left
      refine ⟨hq1, hq2, hq3, hq4, ?_⟩
      have hne : x.toNat ≠ q.1.toNat ∨ z.toNat ≠ q.2.toNat := by
        by_cases h1 : q.1 = x
        · right
          refine toNat_ne_of_ne hz0 hq3 ?_
          intro h2
          exact heq (Prod.ext h1 h2.symm)
        · exact Or.inl fun hc => h1 (by omega)
      rw [getCell_setCell_ne g x z 0 q.1 q.2 hne] at hq5
      exact hq5
  · rintro (⟨hq1, hq2, hq3, hq4, hq5⟩ | rfl)
    · by_cases heq : q = (x, z)
      · subst heq
        exact ⟨hq1, hq2, hq3, hq4, getCell_setCell_same hs hq1 hq2 hq3 hq4 0⟩
      · refine ⟨hq1, hq2, hq3, hq4, ?_⟩
        have hne : x.toNat ≠ q.1.toNat ∨ z.toNat ≠ q.2.toNat := by
          by_cases h1 : q.1 = x
          · right
            refine toNat_ne_of_ne hz0 hq3 ?_
            intro h2
            exact heq (Prod.ext h1 h2.symm)
          · exact Or.inl fun hc => h1 (by omega)
        rw [getCell_setCell_ne g x z 0 q.1 q.2 hne]
        exact hq5
    · exact ⟨hx0, hxw, hz0, hzh, getCell_setCell_same hs hx0 hxw hz0 hzh 0⟩

lemma room_ne_mid {p m : Cell} (hp : p.1 % 2 = 1 ∧ p.2 % 2 = 1)
    (hm : (m.1 % 2 = 1 ∧ m.2 % 2 = 0) ∨ (m.1 % 2 = 0 ∧ m.2 % 2 = 1)) : p ≠ m := by
  intro heq
  subst heq
  omega

/-- The carved wall cell between two interior rooms is itself strictly interior. -/
lemma midPt_interior {w h : ℕ} {a b : Cell} (hstep : isRoomStep a b)
    (ha : isRoom w h a) (hb : isRoom w h b) :
    0 < (midPt a b).1 ∧ (midPt a b).1 < (w : ℤ) - 1 ∧
    0 < (midPt a b).2 ∧ (midPt a b).2 < (h : ℤ) - 1 := by
  obtain ⟨_, _, ha1, ha2, ha3, ha4⟩ := ha
  obtain ⟨_, _, hb1, hb2, hb3, hb4⟩ := hb
  rcases midPt_cases hstep with ⟨h1, h2, h3⟩ | ⟨h1, h2, h3⟩ | ⟨h1, h2, h3⟩ | ⟨h1, h2, h3⟩ <;>
    rw [h3] <;> dsimp only <;> omega

/-- The midpoint is 4-adjacent to both of its endpoint rooms. -/
lemma midPt_adj {a b : Cell} (hstep : isRoomStep a b) :
    adjCell a (midPt a b) ∧ adjCell (midPt a b) b := by
  unfold adjCell
  rcases midPt_cases hstep with ⟨h1, h2, h3⟩ | ⟨h1, h2, h3⟩ | ⟨h1, h2, h3⟩ | ⟨h1, h2, h3⟩ <;>
    rw [h3] <;> dsimp only <;> omega

/-- The only cells with both coordinates odd that are 4-adjacent to the midpoint
of a carved edge are its two endpoint rooms. -/
lemma mid_adj_rooms {a b x : Cell} (hstep : isRoomStep a b)
    (ha : a.1 % 2 = 1 ∧ a.2 % 2 = 1) (hx : x.1 % 2 = 1 ∧ x.2 % 2 = 1)
    (hadj : adjCell x (midPt a b)) : x = a ∨ x = b := by
  obtain ⟨a1, a2⟩ := a
  obtain ⟨b1, b2⟩ := b
  obtain ⟨x1, x2⟩ := x
  unfold adjCell at hadj
  rcases midPt_cases hstep with ⟨h1, h2, h3⟩ | ⟨h1, h2, h3⟩ | ⟨h1, h2, h3⟩ | ⟨h1, h2, h3⟩ <;>
    rw [h3] at hadj <;>
    simp only [Prod.mk.injEq] at h1 h2 hadj ⊢ <;>
    simp only at ha hx <;>
    omega

/-! ## The carving loop invariant -/

/-- The invariant of `carveLoop`, with ghost data: `par` maps each visited room
other than the start to the room it was carved from, and `dep` is a depth
function on the carved subdivision (rooms at even depths, carved wall cells at
odd depths).  `openChar` states that the Open cells are exactly the visited
rooms together with the carved wall midpoints. -/
structure CarveInvG (w h : ℕ) (par : Cell → Cell) (dep : Cell → ℕ)
    (s : CarveState) : Prop where
  shape : GridShape w h s.grid
  vals : ∀ x z : ℤ, getCell s.grid x z = 0 ∨ getCell s.grid x z = 1
  startV : ((1 : ℤ), (1 : ℤ)) ∈ s.visited
  rooms : ∀ p ∈ s.visited, isRoom w h p
  parMem : ∀ p ∈ s.visited, p ≠ (1, 1) → par p ∈ s.visited ∧ isRoomStep (par p) p
  depStart : dep (1, 1) = 0
  depPar : ∀ p ∈ s.visited, p ≠ (1, 1) → dep p = dep (par p) + 2
  depMid : ∀ p ∈ s.visited, p ≠ (1, 1) → dep (midPt (par p) p) = dep (par p) + 1
  openChar : ∀ q : Cell, openCellG w h s.grid q ↔
    (q ∈ s.visited ∨ ∃ p ∈ s.visited, p ≠ (1, 1) ∧ q = midPt (par p) p)
  stackVis : ∀ p ∈ s.stack, p ∈ s.visited
  stackNodup : s.stack.Nodup
  stackClosed : ∀ v ∈ s.visited, v ∈ s.stack ∨
    ∀ n : Cell, isRoomStep v n → isRoom w h n → n ∈ s.visited

lemma carveInv_pop {w h : ℕ} {par : Cell → Cell} {dep : Cell → ℕ}
    {g : GridRows} {visited : Finset Cell} {cur : Cell} {rest : List Cell} {k k' : ℕ}
    (hinv : CarveInvG w h par dep ⟨g, visited, cur :: rest, k⟩)
    (hempty : (getUnvisitedNeighbors w h cur.1 cur.2 visited).isEmpty = true) :
    CarveInvG w h par dep ⟨g, visited, rest, k'⟩ := by
  obtain ⟨shape, vals, startV, rooms, parMem, depStart, depPar, depMid, openChar,
    stackVis, stackNodup, stackClosed⟩ := hinv
  dsimp only at shape vals startV rooms parMem depPar depMid openChar stackVis stackNodup stackClosed
  have hclosure : ∀ n : Cell, isRoomStep cur n → isRoom w h n → n ∈ visited := by
    intro n hstep hroom
    by_contra hnv
    have hmem : n ∈ getUnvisitedNeighbors w h cur.1 cur.2 visited := by
      rw [mem_getUnvisitedNeighbors]
      obtain ⟨_, _, hb1, hb2, hb3, hb4⟩ := hroom
      exact ⟨isRoomStep_iff_carveDirs.1 hstep, hb1, hb2, hb3, hb4, hnv⟩
    rw [List.isEmpty_iff] at hempty
    rw [hempty] at hmem
    exact List.not_mem_nil n hmem
  refine ⟨shape, vals, startV, rooms, parMem, depStart, depPar, depMid, openChar,
    ?_, ?_, ?_⟩
  · intro p hp
    exact stackVis p (List.mem_cons_of_mem _ hp)
  · exact stackNodup.of_cons
  · intro v hv
    rcases stackClosed v hv with hst | hcl
    · rcases List.mem_cons.1 hst with rfl | hst'
      · exact Or.inr hclosure
      · exact Or.inl hst'
    · exact Or.inr hcl

lemma carveInv_push {w h : ℕ} {par : Cell → Cell} {dep : Cell → ℕ}
    {g : GridRows} {visited : Finset Cell} {cur : Cell} {rest : List Cell} {k k' : ℕ}
    (hinv : CarveInvG w h par dep ⟨g, visited, cur :: rest, k⟩)
    {next : Cell} (hmem : next ∈ getUnvisitedNeighbors w h cur.1 cur.2 visited) :
    CarveInvG w h (Function.update par next cur)
      (Function.update (Function.update dep next (dep cur + 2))
        (midPt cur next) (dep cur + 1))
      ⟨setCell (setCell g (midPt cur next).1 (midPt cur next).2 0) next.1 next.2 0,
       insert next visited, next :: cur :: rest, k'⟩ := by
  obtain ⟨shape, vals, startV, rooms, parMem, depStart, depPar, depMid, openChar,
    stackVis, stackNodup, stackClosed⟩ := hinv
  dsimp only at shape vals startV rooms parMem depPar depMid openChar stackVis stackNodup stackClosed
  rw [mem_getUnvisitedNeighbors] at hmem
  obtain ⟨⟨d, hd, hnd⟩, hb1, hb2, hb3, hb4, hfresh⟩ := hmem
  have hcurV : cur ∈ visited := stackVis cur (List.mem_cons_self _ _)
  have hcurRoom : isRoom w h cur := rooms cur hcurV
  have hstepRS : isRoomStep cur next := isRoomStep_iff_carveDirs.2 ⟨d, hd, hnd⟩
  have hcurOdd : cur.1 % 2 = 1 ∧ cur.2 % 2 = 1 := ⟨hcurRoom.1, hcurRoom.2.1⟩
  have hnextOdd : next.1 % 2 = 1 ∧ next.2 % 2 = 1 := isRoomStep_parity hstepRS hcurOdd
  have hnextRoom : isRoom w h next := ⟨hnextOdd.1, hnextOdd.2, hb1, hb2, hb3, hb4⟩
  have hnext_ne_start : next ≠ (1, 1) := by
    intro heq
    rw [heq] at hfresh
    exact hfresh startV
  have hmidPar := midPt_parity hstepRS hcurOdd
  have hmidB := midPt_interior hstepRS hcurRoom hnextRoom
  have hmid_ne_next : next ≠ midPt cur next := room_ne_mid hnextOdd hmidPar
  have hmid_ne_cur : cur ≠ midPt cur next := room_ne_mid hcurOdd hmidPar
  have hmid_ne_start : ((1 : ℤ), (1 : ℤ)) ≠ midPt cur next :=
    room_ne_mid (by constructor <;> rfl) hmidPar
  -- evaluation of the updated ghosts
  have hpar_next : Function.update par next cur next = cur := Function.update_same _ _ _
  have hpar_old : ∀ p : Cell, p ≠ next → Function.update par next cur p = par p :=
    fun p hp => Function.update_noteq hp _ _
  have hdep_mid : Function.update (Function.update dep next (dep cur + 2))
      (midPt cur next) (dep cur + 1) (midPt cur next) = dep cur + 1 :=
    Function.update_same _ _ _
  have hdep_next : Function.update (Function.update dep next (dep cur + 2))
      (midPt cur next) (dep cur + 1) next = dep cur + 2 := by
    rw [Function.update_noteq hmid_ne_next, Function.update_same]
  have hdep_old : ∀ q : Cell, q ≠ next → q ≠ midPt cur next →
      Function.update (Function.update dep next (dep cur + 2))
        (midPt cur next) (dep cur + 1) q = dep q := by
    intro q h1 h2
    rw [Function.update_noteq h2, Function.update_noteq h1]
  -- old visited rooms and their parents/midpoints are untouched
  have hvis_ne_next : ∀ p ∈ visited, p ≠ next := by
    intro p hp heq
    rw [heq] at hp
    exact hfresh hp
  have hvis_ne_mid : ∀ p ∈ visited, p ≠ midPt cur next := by
    intro p hp
    exact room_ne_mid ⟨(rooms p hp).1, (rooms p hp).2.1⟩ hmidPar
  have holdmid_ne_next : ∀ p ∈ visited, p ≠ (1, 1) → midPt (par p) p ≠ next := by
    intro p hp hp1 heq
    have hparOdd : (par p).1 % 2 = 1 ∧ (par p).2 % 2 = 1 := by
      have := rooms _ (parMem p hp hp1).1
      exact ⟨this.1, this.2.1⟩
    have := midPt_parity (parMem p hp hp1).2 hparOdd
    exact room_ne_mid hnextOdd this heq.symm
  have holdmid_ne_mid : ∀ p ∈ visited, p ≠ (1, 1) →
      midPt (par p) p ≠ midPt cur next := by
    intro p hp hp1 heq
    have hparOdd : (par p).1 % 2 = 1 ∧ (par p).2 % 2 = 1 := by
      have := rooms _ (parMem p hp hp1).1
      exact ⟨this.1, this.2.1⟩
    rcases midPt_pair_eq (parMem p hp hp1).2 hstepRS hparOdd hcurOdd heq with
      ⟨h1, h2⟩ | ⟨h1, h2⟩
    · exact hfresh (h2 ▸ hp)
    · exact hfresh (h1 ▸ (parMem p hp hp1).1)
  have hshape1 : GridShape w h (setCell g (midPt cur next).1 (midPt cur next).2 0) :=
    gridShape_setCell shape _ _ 0
  have hopen2 : ∀ q : Cell,
      openCellG w h (setCell (setCell g (midPt cur next).1 (midPt cur next).2 0)
        next.1 next.2 0) q ↔
      (openCellG w h g q ∨ q = midPt cur next) ∨ q = next := by
    intro q
    rw [openCellG_setCell_zero hshape1 (by omega) (by omega) (by omega) (by omega) q,
      openCellG_setCell_zero shape (by omega) (by omega) (by omega) (by omega) q,
      Prod.mk.eta, Prod.mk.eta]
  constructor
  · exact gridShape_setCell hshape1 _ _ 0
  · intro x z
    rcases getCell_setCell_cases (setCell g (midPt cur next).1 (midPt cur next).2 0)
        next.1 next.2 0 x z with h | h
    · exact Or.inl h
    · rw [h]
      rcases getCell_setCell_cases g (midPt cur next).1 (midPt cur next).2 0 x z with
        h2 | h2
      · exact Or.inl h2
      · rw [h2]
        exact vals x z
  · exact Finset.mem_insert_of_mem startV
  · intro p hp
    rcases Finset.mem_insert.1 hp with rfl | hp'
    · exact hnextRoom
    · exact rooms p hp'
  · intro p hp hp1
    rcases Finset.mem_insert.1 hp with rfl | hp'
    · rw [hpar_next]
      exact ⟨Finset.mem_insert_of_mem hcurV, hstepRS⟩
    · rw [hpar_old p (hvis_ne_next p hp')]
      exact ⟨Finset.mem_insert_of_mem (parMem p hp' hp1).1, (parMem p hp' hp1).2⟩
  · rw [hdep_old (1, 1) (Ne.symm hnext_ne_start) hmid_ne_start]
    exact depStart
  · intro p hp hp1
    rcases Finset.mem_insert.1 hp with rfl | hp'
    · rw [hpar_next, hdep_next, hdep_old cur (hvis_ne_next cur hcurV) hmid_ne_cur]
    · rw [hpar_old p (hvis_ne_next p hp'),
        hdep_old p (hvis_ne_next p hp') (hvis_ne_mid p hp'),
        hdep_old (par p) (hvis_ne_next _ (parMem p hp' hp1).1)
          (hvis_ne_mid _ (parMem p hp' hp1).1)]
      exact depPar p hp' hp1
  · intro p hp hp1
    rcases Finset.mem_insert.1 hp with rfl | hp'
    · rw [hpar_next, hdep_mid, hdep_old cur (hvis_ne_next cur hcurV) hmid_ne_cur]
    · rw [hpar_old p (hvis_ne_next p hp'),
        hdep_old (midPt (par p) p) (holdmid_ne_next p hp' hp1)
          (holdmid_ne_mid p hp' hp1),
        hdep_old (par p) (hvis_ne_next _ (parMem p hp' hp1).1)
          (hvis_ne_mid _ (parMem p hp' hp1).1)]
      exact depMid p hp' hp1
  · intro q
    rw [hopen2 q, openChar q]
    constructor
    · rintro ((hq | hq) | hq)
      · rcases hq with hq | ⟨p, hp', hp1, hq⟩
        · exact Or.inl (Finset.mem_insert_of_mem hq)
        · refine Or.inr ⟨p, Finset.mem_insert_of_mem hp', hp1, ?_⟩
          rw [hpar_old p (hvis_ne_next p hp')]
          exact hq
      · refine Or.inr ⟨next, Finset.mem_insert_self _ _, hnext_ne_start, ?_⟩
        rw [hpar_next]
        exact hq
      · refine Or.inl ?_
        rw [hq]
        exact Finset.mem_insert_self _ _
    · rintro (hq | ⟨p, hp, hp1, hq⟩)
      · rcases Finset.mem_insert.1 hq with rfl | hq'
        · exact Or.inr rfl
        · exact Or.inl (Or.inl (Or.inl hq'))
      · rcases Finset.mem_insert.1 hp with rfl | hp'
        · rw [hpar_next] at hq
          exact Or.inl (Or.inr hq)
        · rw [hpar_old p (hvis_ne_next p hp')] at hq
          exact Or.inl (Or.inl (Or.inr ⟨p, hp', hp1, hq⟩))
  · intro p hp
    rcases List.mem_cons.1 hp with rfl | hp'
    · exact Finset.mem_insert_self _ _
    · exact Finset.mem_insert_of_mem (stackVis p hp')
  · exact List.Nodup.cons (fun hmem2 => hfresh (stackVis next hmem2)) stackNodup
  · intro v hv
    rcases Finset.mem_insert.1 hv with rfl | hv'
    · exact Or.inl (List.mem_cons_self _ _)
    · rcases stackClosed v hv' with hst | hcl
      · exact Or.inl (List.mem_cons_of_mem _ hst)
      · right
        intro n h1 h2
        exact Finset.mem_insert_of_mem (hcl n h1 h2)

lemma getD_mod_mem {l : List Cell} (hne : l.isEmpty = false) (i : ℕ) (dflt : Cell) :
    l.getD (i % l.length) dflt ∈ l := by
  have hlen : 0 < l.length := by
    cases l with
    | nil => simp at hne
    | cons a t => simp
  have hmod : i % l.length < l.length := Nat.mod_lt _ hlen
  rw [List.getD_eq_getElem _ _ hmod]
  exact List.getElem_mem hmod

lemma carveLoop_inv (w h : ℕ) (rand : ℕ → ℕ) :
    ∀ (fuel : ℕ) (s : CarveState), (∃ par dep, CarveInvG w h par dep s) →
      ∃ par dep, CarveInvG w h par dep (carveLoop w h rand fuel s) := by
  intro fuel
  induction fuel with
  | zero =>
    intro s hs
    exact hs
  | succ fuel ih =>
    intro s hs
    obtain ⟨g, visited, stack, k⟩ := s
    cases stack with
    | nil => exact hs
    | cons cur rest =>
      obtain ⟨par, dep, hinv⟩ := hs
      simp only [carveLoop]
      by_cases hemp : (getUnvisitedNeighbors w h cur.1 cur.2 visited).isEmpty = true
      · rw [if_pos hemp]
        exact ih _ ⟨par, dep, carveInv_pop hinv hemp⟩
      · rw [if_neg hemp]
        have hempF : (getUnvisitedNeighbors w h cur.1 cur.2 visited).isEmpty = false := by
          simpa using hemp
        refine ih _ ⟨_, _, carveInv_push hinv (getD_mod_mem hempF (rand k) (0, 0))⟩

def allCells (w h : ℕ) : Finset Cell :=
  (Finset.range w ×ˢ Finset.range h).image fun p => ((p.1 : ℤ), (p.2 : ℤ))

lemma mem_allCells {w h : ℕ} {p : Cell} :
    p ∈ allCells w h ↔ 0 ≤ p.1 ∧ p.1 < (w : ℤ) ∧ 0 ≤ p.2 ∧ p.2 < (h : ℤ) := by
  unfold allCells
  rw [Finset.mem_image]
  constructor
  · rintro ⟨q, hq, rfl⟩
    rw [Finset.mem_product, Finset.mem_range, Finset.mem_range] at hq
    dsimp only
    omega
  · rintro ⟨h1, h2, h3, h4⟩
    refine ⟨(p.1.toNat, p.2.toNat), ?_, ?_⟩
    · rw [Finset.mem_product, Finset.mem_range, Finset.mem_range]
      dsimp only
      omega
    · dsimp only
      rw [Int.toNat_of_nonneg h1, Int.toNat_of_nonneg h3]

def carveMeasure (w h : ℕ) (s : CarveState) : ℕ :=
  2 * ((allCells w h).filter (fun p => p ∉ s.visited)).card + s.stack.length

lemma card_allCells_le (w h : ℕ) : (allCells w h).card ≤ w * h := by
  unfold allCells
  calc ((Finset.range w ×ˢ Finset.range h).image
      fun p : ℕ × ℕ => ((p.1 : ℤ), (p.2 : ℤ))).card
      ≤ (Finset.range w ×ˢ Finset.range h).card := Finset.card_image_le
    _ = w * h := by rw [Finset.card_product, Finset.card_range, Finset.card_range]

lemma carveLoop_stack_empty (w h : ℕ) (rand : ℕ → ℕ) :
    ∀ (fuel : ℕ) (s : CarveState), carveMeasure w h s ≤ fuel →
      (carveLoop w h rand fuel s).stack = [] := by
  intro fuel
  induction fuel with
  | zero =>
    intro s hm
    unfold carveMeasure at hm
    have hlen : s.stack.length = 0 := by omega
    exact List.length_eq_zero.1 hlen
  | succ fuel ih =>
    intro s hm
    obtain ⟨g, visited, stack, k⟩ := s
    cases stack with
    | nil => rfl
    | cons cur rest =>
      simp only [carveLoop]
      unfold carveMeasure at hm
      simp only [List.length_cons] at hm
      by_cases hemp : (getUnvisitedNeighbors w h cur.1 cur.2 visited).isEmpty = true
      · rw [if_pos hemp]
        refine ih _ ?_
        unfold carveMeasure
        simp only
        omega
      · rw [if_neg hemp]
        have hempF : (getUnvisitedNeighbors w h cur.1 cur.2 visited).isEmpty = false := by
          simpa using hemp
        have hnextMem := getD_mod_mem hempF
          (rand k) ((0 : ℤ), (0 : ℤ))
        rw [mem_getUnvisitedNeighbors] at hnextMem
        obtain ⟨_, hb1, hb2, hb3, hb4, hfresh⟩ := hnextMem
        have hall : (getUnvisitedNeighbors w h cur.1 cur.2 visited).getD
            (rand k % (getUnvisitedNeighbors w h cur.1 cur.2 visited).length)
            ((0 : ℤ), (0 : ℤ)) ∈ allCells w h :=
          mem_allCells.2 (by omega)
        refine ih _ ?_
        unfold carveMeasure
        simp only [List.length_cons]
        have hfilter : (allCells w h).filter
            (fun p => p ∉ insert ((getUnvisitedNeighbors w h cur.1 cur.2 visited).getD
              (rand k % (getUnvisitedNeighbors w h cur.1 cur.2 visited).length)
              ((0 : ℤ), (0 : ℤ))) visited) =
            ((allCells w h).filter (fun p => p ∉ visited)).erase
              ((getUnvisitedNeighbors w h cur.1 cur.2 visited).getD
                (rand k % (getUnvisitedNeighbors w h cur.1 cur.2 visited).length)
                ((0 : ℤ), (0 : ℤ))) := by
          ext p
          simp only [Finset.mem_filter, Finset.mem_erase, Finset.mem_insert]
          constructor
          · rintro ⟨hpAll, hpcond⟩
            push_neg at hpcond
            exact ⟨hpcond.1, hpAll, hpcond.2⟩
          · rintro ⟨hne2, hpAll, hnv⟩
            refine ⟨hpAll, ?_⟩
            push_neg
            exact ⟨hne2, hnv⟩
        rw [hfilter, Finset.card_erase_of_mem (Finset.mem_filter.2 ⟨hall, hfresh⟩)]
        have hpos : 0 < ((allCells w h).filter (fun p => p ∉ visited)).card :=
          Finset.card_pos.2 ⟨_, Finset.mem_filter.2 ⟨hall, hfresh⟩⟩
        omega

lemma carveInv_init (w h : ℕ) (h3w : 3 ≤ w) (h3h : 3 ≤ h) :
    CarveInvG w h (fun _ => ((1 : ℤ), (1 : ℤ))) (fun _ => 0)
      ⟨setCell (createEmptyGrid w h) 1 1 0, {((1 : ℤ), (1 : ℤ))}, [(1, 1)], 0⟩ := by
  have hshape0 := gridShape_createEmpty w h
  constructor
  · exact gridShape_setCell hshape0 1 1 0
  · intro x z
    rcases getCell_setCell_cases (createEmptyGrid w h) 1 1 0 x z with h1 | h1
    · exact Or.inl h1
    · rw [h1, getCell_createEmpty]
      exact Or.inr rfl
  · exact Finset.mem_singleton_self _
  · intro p hp
    rw [Finset.mem_singleton] at hp
    subst hp
    unfold isRoom
    dsimp only
    omega
  · intro p hp hp1
    rw [Finset.mem_singleton] at hp
    exact absurd hp hp1
  · rfl
  · intro p hp hp1
    rw [Finset.mem_singleton] at hp
    exact absurd hp hp1
  · intro p hp hp1
    rw [Finset.mem_singleton] at hp
    exact absurd hp hp1
  · intro q
    dsimp only
    rw [openCellG_setCell_zero hshape0 (by omega) (by omega) (by omega) (by omega) q]
    constructor
    · rintro (⟨_, _, _, _, hq5⟩ | rfl)
      · rw [getCell_createEmpty] at hq5
        exact absurd hq5 one_ne_zero
      · exact Or.inl (Finset.mem_singleton_self _)
    · rintro (hq | ⟨p, hp, hp1, _⟩)
      · rw [Finset.mem_singleton] at hq
        exact Or.inr hq
      · rw [Finset.mem_singleton] at hp
        exact absurd hp hp1
  · intro p hp
    rw [List.mem_singleton] at hp
    subst hp
    exact Finset.mem_singleton_self _
  · exact List.nodup_singleton _
  · intro v hv
    rw [Finset.mem_singleton] at hv
    subst hv
    exact Or.inl (List.mem_singleton_self _)

/-- With the closure property of the finished carve, every room is visited:
the room lattice is connected by decreasing coordinate steps toward (1,1). -/
lemma rooms_visited_of_closed {w h : ℕ} {visited : Finset Cell}
    (hstart : ((1 : ℤ), (1 : ℤ)) ∈ visited)
    (hclosed : ∀ v ∈ visited, ∀ n : Cell, isRoomStep v n → isRoom w h n → n ∈ visited) :
    ∀ r : Cell, isRoom w h r → r ∈ visited := by
  have key : ∀ n : ℕ, ∀ r : Cell, (r.1 + r.2).toNat = n → isRoom w h r → r ∈ visited := by
    intro n
    induction n using Nat.strong_induction_on with
    | _ n ih =>
      intro r hn hroom
      obtain ⟨hp1, hp2, hb1, hb2, hb3, hb4⟩ := hroom
      by_cases h11 : r = (1, 1)
      · rw [h11]
        exact hstart
      · have hcase : 3 ≤ r.1 ∨ 3 ≤ r.2 := by
          by_contra hcon
          push_neg at hcon
          refine h11 (Prod.ext ?_ ?_) <;> omega
        rcases hcase with hc | hc
        · have hroom' : isRoom w h (r.1 - 2, r.2) := by
            unfold isRoom
            dsimp only
            omega
          have hlt : ((r.1 - 2, r.2).1 + (r.1 - 2, r.2).2).toNat < n := by
            dsimp only
            omega
          have hv' := ih _ hlt (r.1 - 2, r.2) rfl hroom'
          have hstep : isRoomStep (r.1 - 2, r.2) r := by
            unfold isRoomStep
            dsimp only
            right
            constructor
            · rfl
            · left
              omega
          exact hclosed _ hv' r hstep ⟨hp1, hp2, hb1, hb2, hb3, hb4⟩
        · have hroom' : isRoom w h (r.1, r.2 - 2) := by
            unfold isRoom
            dsimp only
            omega
          have hlt : ((r.1, r.2 - 2).1 + (r.1, r.2 - 2).2).toNat < n := by
            dsimp only
            omega
          have hv' := ih _ hlt (r.1, r.2 - 2) rfl hroom'
          have hstep : isRoomStep (r.1, r.2 - 2) r := by
            unfold isRoomStep
            dsimp only
            left
            constructor
            · rfl
            · left
              omega
          exact hclosed _ hv' r hstep ⟨hp1, hp2, hb1, hb2, hb3, hb4⟩
  intro r hroom
  exact key _ r rfl hroom

/-- The finished carve: an invariant-satisfying final state with an empty stack
whose grid is `carvePassages w h rand`, in which every room is visited. -/
lemma carve_final_spec (w h : ℕ) (rand : ℕ → ℕ) (h3w : 3 ≤ w) (h3h : 3 ≤ h) :
    ∃ (par : Cell → Cell) (dep : Cell → ℕ) (visited : Finset Cell) (k : ℕ),
      CarveInvG w h par dep ⟨carvePassages w h rand, visited, [], k⟩ ∧
      (∀ r : Cell, isRoom w h r → r ∈ visited) := by
  obtain ⟨par, dep, hinv⟩ := carveLoop_inv w h rand (2 * w * h + 1)
    ⟨setCell (createEmptyGrid w h) 1 1 0, {((1 : ℤ), (1 : ℤ))}, [(1, 1)], 0⟩
    ⟨_, _, carveInv_init w h h3w h3h⟩
  have hempty : (carveLoop w h rand (2 * w * h + 1)
      ⟨setCell (createEmptyGrid w h) 1 1 0, {((1 : ℤ), (1 : ℤ))}, [(1, 1)], 0⟩).stack
      = [] := by
    apply carveLoop_stack_empty
    unfold carveMeasure
    have hc : ((allCells w h).filter (fun p =>
        p ∉ ({((1 : ℤ), (1 : ℤ))} : Finset Cell))).card ≤ w * h :=
      le_trans (Finset.card_filter_le _ _) (card_allCells_le w h)
    simp only [List.length_singleton]
    have hassoc : 2 * w * h = 2 * (w * h) := by ring
    omega
  set sf := carveLoop w h rand (2 * w * h + 1)
    ⟨setCell (createEmptyGrid w h) 1 1 0, {((1 : ℤ), (1 : ℤ))}, [(1, 1)], 0⟩ with hsf
  have hinv2 : CarveInvG w h par dep ⟨carvePassages w h rand, sf.visited, [], sf.k⟩ := by
    have heta : sf = ⟨sf.grid, sf.visited, sf.stack, sf.k⟩ := rfl
    rw [← hempty]
    have hgrid : carvePassages w h rand = sf.grid := rfl
    rw [hgrid]
    rw [← heta]
    exact hinv
  refine ⟨par, dep, sf.visited, sf.k, hinv2, ?_⟩
  refine rooms_visited_of_closed hinv2.startV ?_
  intro v hv n h1 h2
  rcases hinv2.stackClosed v hv with hst | hcl
  · exact absurd hst (List.not_mem_nil _)
  · exact hcl n h1 h2

/-! ## C1: reachability and acyclicity of the carved maze -/

/-- A simple cycle in the Open-cell 4-adjacency graph: at least 3 distinct
cells arranged cyclically, consecutive ones adjacent and all Open. -/
def HasOpenCycle (m : MazeModel) : Prop :=
  ∃ n : ℕ, 3 ≤ n ∧ ∃ f : ZMod n → Cell, Function.Injective f ∧
    ∀ i : ZMod n, inBoundsOpen m (f i) = true ∧ adjCell (f i) (f (i + 1))

lemma adjCell_symm {a b : Cell} (h : adjCell a b) : adjCell b a := by
  unfold adjCell at *
  omega

lemma room_room_not_adj {a b : Cell} (ha : a.1 % 2 = 1 ∧ a.2 % 2 = 1)
    (hb : b.1 % 2 = 1 ∧ b.2 % 2 = 1) (hadj : adjCell a b) : False := by
  unfold adjCell at hadj
  omega

lemma mid_mid_not_adj {a b : Cell}
    (ha : (a.1 % 2 = 1 ∧ a.2 % 2 = 0) ∨ (a.1 % 2 = 0 ∧ a.2 % 2 = 1))
    (hb : (b.1 % 2 = 1 ∧ b.2 % 2 = 0) ∨ (b.1 % 2 = 0 ∧ b.2 % 2 = 1))
    (hadj : adjCell a b) : False := by
  unfold adjCell at hadj
  omega

/-- Reachability of every Open cell from the start in the finished carve. -/
lemma carve_reachable {w h : ℕ} {par : Cell → Cell} {dep : Cell → ℕ}
    {g : GridRows} {visited : Finset Cell} {k : ℕ}
    (hinv : CarveInvG w h par dep ⟨g, visited, [], k⟩) :
    ∀ q : Cell, openCellG w h g q →
      Relation.ReflTransGen (fun a b => adjCell a b ∧ openCellG w h g b)
        ((1 : ℤ), (1 : ℤ)) q := by
  obtain ⟨shape, vals, startV, rooms, parMem, depStart, depPar, depMid, openChar,
    stackVis, stackNodup, stackClosed⟩ := hinv
  dsimp only at startV rooms parMem depPar depMid openChar
  have keyRoom : ∀ n : ℕ, ∀ p ∈ visited, dep p = n →
      Relation.ReflTransGen (fun a b => adjCell a b ∧ openCellG w h g b)
        ((1 : ℤ), (1 : ℤ)) p := by
    intro n
    induction n using Nat.strong_induction_on with
    | _ n ih =>
      intro p hp hdep
      by_cases h11 : p = (1, 1)
      · rw [h11]
      · obtain ⟨hparV, hparStep⟩ := parMem p hp h11
        have hdp := depPar p hp h11
        have hreachPar := ih (dep (par p)) (by omega) (par p) hparV rfl
        have hmidOpen : openCellG w h g (midPt (par p) p) :=
          (openChar _).2 (Or.inr ⟨p, hp, h11, rfl⟩)
        have hpOpen : openCellG w h g p := (openChar _).2 (Or.inl hp)
        have hadj := midPt_adj hparStep
        exact (hreachPar.tail ⟨hadj.1, hmidOpen⟩).tail ⟨hadj.2, hpOpen⟩
  intro q hq
  rcases (openChar q).1 hq with hqv | ⟨p, hp, hp1, hqmid⟩
  · exact keyRoom (dep q) q hqv rfl
  · have hparV := (parMem p hp hp1).1
    have hreachPar := keyRoom (dep (par p)) (par p) hparV rfl
    have hadj := midPt_adj (parMem p hp hp1).2
    rw [hqmid]
    exact hreachPar.tail ⟨hadj.1, (openChar _).2 (Or.inr ⟨p, hp, hp1, rfl⟩)⟩

/-- Every edge of the carved Open graph changes the subdivision depth by one. -/
lemma carve_edge_dep {w h : ℕ} {par : Cell → Cell} {dep : Cell → ℕ}
    {g : GridRows} {visited : Finset Cell} {k : ℕ}
    (hinv : CarveInvG w h par dep ⟨g, visited, [], k⟩)
    {a b : Cell} (ha : openCellG w h g a) (hb : openCellG w h g b)
    (hadj : adjCell a b) :
    dep b = dep a + 1 ∨ dep a = dep b + 1 := by
  obtain ⟨shape, vals, startV, rooms, parMem, depStart, depPar, depMid, openChar,
    stackVis, stackNodup, stackClosed⟩ := hinv
  dsimp only at startV rooms parMem depPar depMid openChar
  have hparOdd : ∀ p ∈ visited, p ≠ (1, 1) →
      ((par p).1 % 2 = 1 ∧ (par p).2 % 2 = 1) := by
    intro p hp hp1
    have := rooms _ (parMem p hp hp1).1
    exact ⟨this.1, this.2.1⟩
  rcases (openChar a).1 ha with hav | ⟨pa, hpa, hpa1, hamid⟩
  · rcases (openChar b).1 hb with hbv | ⟨pb, hpb, hpb1, hbmid⟩
    · exact absurd hadj (fun hc =>
        room_room_not_adj ⟨(rooms a hav).1, (rooms a hav).2.1⟩
          ⟨(rooms b hbv).1, (rooms b hbv).2.1⟩ hc)
    · -- a is a room, b the midpoint of (par pb, pb)
      subst hbmid
      have h1 := depMid pb hpb hpb1
      have h2 := depPar pb hpb hpb1
      rcases mid_adj_rooms (parMem pb hpb hpb1).2 (hparOdd pb hpb hpb1)
          ⟨(rooms a hav).1, (rooms a hav).2.1⟩ hadj with heq | heq <;>
        rw [heq] <;> omega
  · rcases (openChar b).1 hb with hbv | ⟨pb, hpb, hpb1, hbmid⟩
    · -- b is a room, a the midpoint of (par pa, pa)
      subst hamid
      have h1 := depMid pa hpa hpa1
      have h2 := depPar pa hpa hpa1
      rcases mid_adj_rooms (parMem pa hpa hpa1).2 (hparOdd pa hpa hpa1)
          ⟨(rooms b hbv).1, (rooms b hbv).2.1⟩ (adjCell_symm hadj) with heq | heq <;>
        rw [heq] <;> omega
    · exfalso
      subst hamid
      subst hbmid
      exact mid_mid_not_adj
        (midPt_parity (parMem pa hpa hpa1).2 (hparOdd pa hpa hpa1))
        (midPt_parity (parMem pb hpb hpb1).2 (hparOdd pb hpb hpb1)) hadj

/-- In the finished carve, each Open cell other than the start has at most one
Open neighbour one depth below it. -/
lemma carve_unique_down {w h : ℕ} {par : Cell → Cell} {dep : Cell → ℕ}
    {g : GridRows} {visited : Finset Cell} {k : ℕ}
    (hinv : CarveInvG w h par dep ⟨g, visited, [], k⟩)
    {b a a' : Cell} (hb : openCellG w h g b) (hb1 : b ≠ (1, 1))
    (ha : openCellG w h g a) (ha' : openCellG w h g a')
    (hadj : adjCell a b) (hadj' : adjCell a' b)
    (hdep : dep b = dep a + 1) (hdep' : dep b = dep a' + 1) : a = a' := by
  obtain ⟨shape, vals, startV, rooms, parMem, depStart, depPar, depMid, openChar,
    stackVis, stackNodup, stackClosed⟩ := hinv
  dsimp only at startV rooms parMem depPar depMid openChar
  have hparOdd : ∀ p ∈ visited, p ≠ (1, 1) →
      ((par p).1 % 2 = 1 ∧ (par p).2 % 2 = 1) := by
    intro p hp hp1
    have := rooms _ (parMem p hp hp1).1
    exact ⟨this.1, this.2.1⟩
  rcases (openChar b).1 hb with hbv | ⟨pb, hpb, hpb1, hbmid⟩
  · -- b is a room: the unique lower neighbour is the midpoint toward its parent
    have key : ∀ c : Cell, openCellG w h g c → adjCell c b → dep b = dep c + 1 →
        c = midPt (par b) b := by
      intro c hc hcadj hcdep
      rcases (openChar c).1 hc with hcv | ⟨pc, hpc, hpc1, hcmid⟩
      · exact absurd hcadj (fun hx =>
          room_room_not_adj ⟨(rooms c hcv).1, (rooms c hcv).2.1⟩
            ⟨(rooms b hbv).1, (rooms b hbv).2.1⟩ hx)
      · subst hcmid
        rcases mid_adj_rooms (parMem pc hpc hpc1).2 (hparOdd pc hpc hpc1)
            ⟨(rooms b hbv).1, (rooms b hbv).2.1⟩ (adjCell_symm hcadj) with hb2 | hb2
        · -- b = par pc: then dep c = dep b + 1, contradicting hcdep
          exfalso
          rw [depMid pc hpc hpc1, ← hb2] at hcdep
          omega
        · -- b = pc
          rw [hb2]
    have h1 := key a ha hadj hdep
    have h2 := key a' ha' hadj' hdep'
    rw [h1, h2]
  · -- b is a midpoint: the unique lower neighbour is par pb
    subst hbmid
    have key : ∀ c : Cell, openCellG w h g c → adjCell c (midPt (par pb) pb) →
        dep (midPt (par pb) pb) = dep c + 1 → c = par pb := by
      intro c hc hcadj hcdep
      rcases (openChar c).1 hc with hcv | ⟨pc, hpc, hpc1, hcmid⟩
      · rcases mid_adj_rooms (parMem pb hpb hpb1).2 (hparOdd pb hpb hpb1)
            ⟨(rooms c hcv).1, (rooms c hcv).2.1⟩ hcadj with hc2 | hc2
        · exact hc2
        · exfalso
          rw [depMid pb hpb hpb1, hc2, depPar pb hpb hpb1] at hcdep
          omega
      · exfalso
        subst hcmid
        exact mid_mid_not_adj
          (midPt_parity (parMem pc hpc hpc1).2 (hparOdd pc hpc hpc1))
          (midPt_parity (parMem pb hpb hpb1).2 (hparOdd pb hpb hpb1)) hcadj
    have h1 := key a ha hadj hdep
    have h2 := key a' ha' hadj' hdep'
    rw [h1, h2]

/-- The finished carve has no cycle: on a cycle, a cell of maximal subdivision
depth would have two distinct Open neighbours one depth below it. -/
lemma carve_acyclic {w h : ℕ} {par : Cell → Cell} {dep : Cell → ℕ}
    {g : GridRows} {visited : Finset Cell} {k : ℕ}
    (hinv : CarveInvG w h par dep ⟨g, visited, [], k⟩) :
    ¬ HasOpenCycle ⟨w, h, g⟩ := by
  rintro ⟨n, hn3, f, hinj, hcyc⟩
  haveI : NeZero n := ⟨by omega⟩
  have hopen : ∀ i : ZMod n, openCellG w h g (f i) := fun i =>
    (openCellG_iff_inBoundsOpen w h g (f i)).2 (hcyc i).1
  obtain ⟨i0, -, hmax⟩ := Finset.exists_max_image (Finset.univ : Finset (ZMod n))
    (fun i => dep (f i)) ⟨0, Finset.mem_univ 0⟩
  have hedge1 : adjCell (f i0) (f (i0 + 1)) := (hcyc i0).2
  have hsub : i0 - 1 + 1 = i0 := by ring
  have hedge2 : adjCell (f (i0 - 1)) (f i0) := by
    have h2 := (hcyc (i0 - 1)).2
    rw [hsub] at h2
    exact h2
  have hd1 : dep (f i0) = dep (f (i0 + 1)) + 1 := by
    rcases carve_edge_dep hinv (hopen i0) (hopen (i0 + 1)) hedge1 with hc | hc
    · exfalso
      have hm := hmax (i0 + 1) (Finset.mem_univ _)
      omega
    · exact hc
  have hd2 : dep (f i0) = dep (f (i0 - 1)) + 1 := by
    rcases carve_edge_dep hinv (hopen (i0 - 1)) (hopen i0) hedge2 with hc | hc
    · exact hc
    · exfalso
      have hm := hmax (i0 - 1) (Finset.mem_univ _)
      omega
  have hne_start : f i0 ≠ (1, 1) := by
    intro heq
    have hds : dep (f i0) = 0 := by rw [heq]; exact hinv.depStart
    omega
  have heqa : f (i0 + 1) = f (i0 - 1) :=
    carve_unique_down hinv (hopen i0) hne_start (hopen (i0 + 1)) (hopen (i0 - 1))
      (adjCell_symm hedge1) hedge2 hd1 hd2
  have hii : i0 + 1 = i0 - 1 := hinj heqa
  have h20 : (2 : ZMod n) = 0 := by
    have hz : i0 + 1 - (i0 - 1) = (0 : ZMod n) := sub_eq_zero.mpr hii
    calc (2 : ZMod n) = i0 + 1 - (i0 - 1) := by ring
    _ = 0 := hz
  have h20n : ((2 : ℕ) : ZMod n) = 0 := by push_cast; exact h20
  have hdvd : n ∣ 2 := (ZMod.natCast_zmod_eq_zero_iff_dvd 2 n).1 h20n
  have hle : n ≤ 2 := Nat.le_of_dvd (by norm_num) hdvd
  omega

/-- C1: for every maze generated with odd width and height in [11, 51], the
carved Open-cell subgraph is a spanning tree over the room cells: every Open
cell is reachable from the start cell (1, 1) via Open-cell 4-neighbor
adjacency, every room cell (both coordinates odd, strictly interior) is Open,
and the Open-cell adjacency graph is acyclic. -/
theorem carve_spanning_tree (w h : ℕ) (rand : ℕ → ℕ)
    (hw : Odd w) (hh : Odd h) (hwlo : 11 ≤ w) (hwhi : w ≤ 51)
    (hhlo : 11 ≤ h) (hhhi : h ≤ 51) :
    (∀ q : Cell, inBoundsOpen (generatedMaze w h rand) q = true →
      Relation.ReflTransGen (bfsEdge (generatedMaze w h rand))
        ((1 : ℤ), (1 : ℤ)) q) ∧
    (∀ q : Cell, isRoom w h q → inBoundsOpen (generatedMaze w h rand) q = true) ∧
    ¬ HasOpenCycle (generatedMaze w h rand) := by
  obtain ⟨par, dep, visited, k, hinv, hall⟩ :=
    carve_final_spec w h rand (by omega) (by omega)
  unfold generatedMaze
  refine ⟨?_, ?_, ?_⟩
  · intro q hq
    have hq' : openCellG w h (carvePassages w h rand) q :=
      (openCellG_iff_inBoundsOpen w h (carvePassages w h rand) q).2 hq
    have hr := carve_reachable hinv q hq'
    exact Relation.ReflTransGen.mono
      (fun a b hab => ⟨hab.1,
        (openCellG_iff_inBoundsOpen w h (carvePassages w h rand) b).1 hab.2⟩) hr
  · intro q hq
    exact (openCellG_iff_inBoundsOpen w h (carvePassages w h rand) q).1
      ((hinv.openChar q).2 (Or.inl (hall q hq)))
  · exact carve_acyclic hinv

/-- Witness for C1: at width = height = 11 with the zero random stream, the
room-cells-are-Open component applied at the start cell. -/
theorem carve_spanning_tree_witness :
    Odd 11 ∧ isRoom 11 11 ((1 : ℤ), (1 : ℤ)) ∧
    inBoundsOpen (generatedMaze 11 11 (fun _ => 0)) ((1 : ℤ), (1 : ℤ)) = true :=
  ⟨by decide, by unfold isRoom; exact ⟨by decide, by decide, by decide, by decide,
      by decide, by decide⟩,
    (carve_spanning_tree 11 11 (fun _ => 0) (by decide) (by decide) (by decide)
      (by decide) (by decide) (by decide)).2.1 ((1 : ℤ), (1 : ℤ))
      ⟨by decide, by decide, by decide, by decide, by decide, by decide⟩⟩

/-! ## C5: border walls, start and exit cells -/

/-- The x coordinate of `Maze.startPosition` set by `generate`. -/
def startPositionX : ℚ := 1 * CELL_SIZE

/-- The z coordinate of `Maze.startPosition` set by `generate`. -/
def startPositionZ : ℚ := 1 * CELL_SIZE

lemma worldToGrid_start :
    worldToGrid startPositionX startPositionZ = ((1 : ℤ), (1 : ℤ)) := by
  norm_num [worldToGrid, jsRound, CELL_SIZE, startPositionX, startPositionZ]

lemma worldToGrid_exit (m : MazeModel) :
    worldToGrid (exitPositionX m) (exitPositionZ m) =
      ((m.width : ℤ) - 2, (m.height : ℤ) - 2) := by
  unfold worldToGrid exitPositionX exitPositionZ jsRound CELL_SIZE
  have hx : ((m.width : ℚ) - 2) * 1 / 1 + 1 / 2 =
      ((m.width : ℤ) - 2 : ℤ) + (1 / 2 : ℚ) := by
    push_cast
    ring
  have hz : ((m.height : ℚ) - 2) * 1 / 1 + 1 / 2 =
      ((m.height : ℤ) - 2 : ℤ) + (1 / 2 : ℚ) := by
    push_cast
    ring
  rw [hx, hz, Int.floor_int_add, Int.floor_int_add]
  norm_num

/-- C5: for every maze generated with odd width and height in [11, 51]: every
border cell (x = 0, x = width-1, z = 0, or z = height-1) is Wall after
generation, the start cell is (1, 1) and is Open, and the exit cell is
(width-2, height-2) and is Open. -/
theorem generate_border_start_exit (w h : ℕ) (rand : ℕ → ℕ)
    (hw : Odd w) (hh : Odd h) (hwlo : 11 ≤ w) (hwhi : w ≤ 51)
    (hhlo : 11 ≤ h) (hhhi : h ≤ 51) :
    (∀ q : Cell, 0 ≤ q.1 → q.1 < (w : ℤ) → 0 ≤ q.2 → q.2 < (h : ℤ) →
      (q.1 = 0 ∨ q.1 = (w : ℤ) - 1 ∨ q.2 = 0 ∨ q.2 = (h : ℤ) - 1) →
      getCell (carvePassages w h rand) q.1 q.2 = 1) ∧
    worldToGrid startPositionX startPositionZ = ((1 : ℤ), (1 : ℤ)) ∧
    inBoundsOpen (generatedMaze w h rand) ((1 : ℤ), (1 : ℤ)) = true ∧
    worldToGrid (exitPositionX (generatedMaze w h rand))
        (exitPositionZ (generatedMaze w h rand)) =
      ((w : ℤ) - 2, (h : ℤ) - 2) ∧
    inBoundsOpen (generatedMaze w h rand) ((w : ℤ) - 2, (h : ℤ) - 2) = true := by
  obtain ⟨par, dep, visited, k, hinv, hall⟩ :=
    carve_final_spec w h rand (by omega) (by omega)
  unfold generatedMaze
  refine ⟨?_, worldToGrid_start, ?_, worldToGrid_exit _, ?_⟩
  · intro q hq0 hq1 hq2 hq3 hborder
    rcases hinv.vals q.1 q.2 with h0v | h0v
    · exfalso
      have hopen : openCellG w h (carvePassages w h rand) q :=
        ⟨hq0, hq1, hq2, hq3, h0v⟩
      rcases (hinv.openChar q).1 hopen with hv | ⟨p, hp, hp1, hqmid⟩
      · have hroom := hinv.rooms q hv
        unfold isRoom at hroom
        omega
      · have hstep := (hinv.parMem p hp hp1).2
        have hroomPar := hinv.rooms _ (hinv.parMem p hp hp1).1
        have hroomP := hinv.rooms p hp
        have hint := midPt_interior hstep hroomPar hroomP
        rw [hqmid] at hborder
        omega
    · exact h0v
  · exact (openCellG_iff_inBoundsOpen w h (carvePassages w h rand) _).1
      ((hinv.openChar _).2 (Or.inl hinv.startV))
  · have hexitRoom : isRoom w h ((w : ℤ) - 2, (h : ℤ) - 2) := by
      obtain ⟨mw, hmw⟩ := hw
      obtain ⟨mh, hmh⟩ := hh
      unfold isRoom
      dsimp only
      omega
    exact (openCellG_iff_inBoundsOpen w h (carvePassages w h rand) _).1
      ((hinv.openChar _).2 (Or.inl (hall _ hexitRoom)))

/-- Witness for C5: at width = height = 11 with the zero random stream, the
border-is-Wall component applied at the corner cell (0, 0). -/
theorem generate_border_start_exit_witness :
    Odd 11 ∧ getCell (carvePassages 11 11 (fun _ => 0)) 0 0 = 1 :=
  ⟨by decide,
    (generate_border_start_exit 11 11 (fun _ => 0) (by decide) (by decide)
      (by decide) (by decide) (by decide) (by decide)).1 ((0 : ℤ), (0 : ℤ))
      (by decide) (by decide) (by decide) (by decide) (Or.inl rfl)⟩
